
import Mathlib

/-!
# Verification of the lexical document-model core

A shallow embedding of the node-graph portion of the repository:
`packages/lexical/src/LexicalNode.js` (`LexicalNode`, `removeNode`) and the
`ElementNode` source file (child list as a doubly-linked list of keys,
`append`, `splice`, `getChildAtIndex`, selection-facing mutators).

Node keys are modelled as natural numbers (the spec treats keys as opaque
tokens whose ordering carries no meaning).  The editor's mutable runtime
(active editor state, `_cloneNotNeeded`, dirty sets, selection) is modelled
as an explicit state record threaded through a state-plus-exceptions monad:
a thrown JS `invariant` keeps the state it had at the throw site, exactly as
a JS exception leaves the mutated-in-place editor state behind.

Functions whose defining source file is not part of the repository snapshot
(`removeFromParent`, `internalMarkNodeAsDirty`, the selection helpers) are
modelled from the specification; each such definition carries a doc comment
starting with "Modelled from the spec:".
-/

/-- Node keys.  The source uses opaque strings; the spec says keys are
"strings or equivalent opaque tokens", so we use naturals. -/
abbrev NodeKey := Nat

/-- Text direction of an element (`__dir`). -/
inductive Dir where
  | ltr
  | rtl
  deriving Repr, DecidableEq

/-- A node record: the fields of `LexicalNode` (`__parent`, `__prev`,
`__next`) together with the `ElementNode` fields (`__first`, `__last`,
`__size`, `__format`, `__indent`, `__dir`) and the variant information the
claims need (element / root / text flags, the `canBeEmpty()` heuristic,
and a text length used for end offsets). -/
structure Node where
  key : NodeKey
  isElem : Bool
  isRoot : Bool
  isText : Bool
  canBeEmpty : Bool
  textSize : Int
  parent : Option NodeKey
  prev : Option NodeKey
  next : Option NodeKey
  format : Int
  indent : Int
  dir : Option Dir
  first : Option NodeKey
  last : Option NodeKey
  size : Int
  deriving Repr, DecidableEq

/-- Offset kind of a selection point (`'text'` vs `'element'`). -/
inductive PtType where
  | text
  | element
  deriving Repr, DecidableEq

/-- A selection point: node key, offset, offset kind. -/
structure Point where
  key : NodeKey
  offset : Int
  ptype : PtType
  deriving Repr, DecidableEq

/-- A range selection: anchor and focus points. -/
structure RangeSel where
  anchor : Point
  focus : Point
  deriving Repr, DecidableEq

/-- The editor/transaction state: whether an update is open, the pending
node mapping, the per-transaction `_cloneNotNeeded` set, the dirty sets,
the current selection, the composition key, and a counter of clone
allocations (each `constructor.clone` call bumps it, making "how many
clones were created" observable in the model). -/
structure EState where
  txnOpen : Bool
  nodeMap : List (NodeKey × Node)
  cloneNotNeeded : List NodeKey
  dirtyElements : List NodeKey
  dirtyLeaves : List NodeKey
  selection : Option RangeSel
  compositionKey : Option NodeKey
  cloneCount : Nat
  deriving Repr, DecidableEq

/-- Errors surfaced by the operations.  `readOnly` is the spec's
`ReadOnlyViolation` (thrown by `errorOnReadOnly`); the others correspond to
the `invariant(false, ...)` throws in the source, by message. -/
inductive Err where
  | readOnly
  | appendSelf
  | notChildOfParent
  | getLatestNotFound
  | noParent
  | fuelOut
  deriving Repr, DecidableEq

/-- Result of running an operation: either a value or an error, in both
cases together with the state at the end (JS exceptions do not roll back
the mutated-in-place editor state). -/
inductive Res (α : Type) where
  | ok (a : α) (s : EState)
  | err (e : Err) (s : EState)
  deriving Repr, DecidableEq

/-- The state-plus-exceptions monad the mutating operations live in. -/
def M (α : Type) : Type := EState → Res α

instance : Monad M where
  pure a := fun s => .ok a s
  bind m f := fun s =>
    match m s with
    | .ok a s1 => f a s1
    | .err e s1 => .err e s1

/-- Read the whole state. -/
def getS : M EState := fun s => .ok s s

/-- Replace the whole state. -/
def modifyS (f : EState → EState) : M Unit := fun s => .ok () (f s)

/-- Throw (models a JS `invariant(false, ...)` / `errorOnReadOnly` throw). -/
def throwM {α : Type} (e : Err) : M α := fun s => .err e s

/-- Association-list lookup over the node mapping (`Map.get`). -/
def findNode : List (NodeKey × Node) → NodeKey → Option Node
  | [], _ => none
  | (k1, n) :: rest, k => if k1 = k then some n else findNode rest k

/-- Association-list update (`Map.set`): replaces in place, appends if new. -/
def setEntry : List (NodeKey × Node) → NodeKey → Node → List (NodeKey × Node)
  | [], k, n => [(k, n)]
  | (k1, n1) :: rest, k, n =>
      if k1 = k then (k, n) :: rest else (k1, n1) :: setEntry rest k n

/-- Add a key to a key set (modelled as a duplicate-free list). -/
def addKey (l : List NodeKey) (k : NodeKey) : List NodeKey :=
  if k ∈ l then l else l ++ [k]

/-- `$getNodeByKey`: resolve a key in the active (pending) node mapping. -/
def getNodeByKey (s : EState) (k : NodeKey) : Option Node := findNode s.nodeMap k

/-- Walk fuel that suffices for any acyclic chain through the mapping. -/
def walkFuel (s : EState) : Nat := s.nodeMap.length + 1

/-- `LexicalNode.getParent`: `this.getLatest().__parent` resolved via
`$getNodeByKey` (so a dangling parent key reads as `null`).  Pure read: the
receiver is assumed to resolve; a missing receiver reads as `null` here and
the monadic operations that must throw in that case do so explicitly. -/
def getParent (s : EState) (k : NodeKey) : Option Node :=
  (findNode s.nodeMap k).bind fun n => n.parent.bind fun pk => findNode s.nodeMap pk

/-- `LexicalNode.getPreviousSibling`. -/
def getPreviousSibling (s : EState) (k : NodeKey) : Option Node :=
  (findNode s.nodeMap k).bind fun n => n.prev.bind fun pk => findNode s.nodeMap pk

/-- `LexicalNode.getNextSibling`. -/
def getNextSibling (s : EState) (k : NodeKey) : Option Node :=
  (findNode s.nodeMap k).bind fun n => n.next.bind fun pk => findNode s.nodeMap pk

/-- `ElementNode.getFirstChild`. -/
def getFirstChild (s : EState) (k : NodeKey) : Option Node :=
  (findNode s.nodeMap k).bind fun n => n.first.bind fun ck => findNode s.nodeMap ck

/-- `ElementNode.getLastChild`. -/
def getLastChild (s : EState) (k : NodeKey) : Option Node :=
  (findNode s.nodeMap k).bind fun n => n.last.bind fun ck => findNode s.nodeMap ck

/-- `ElementNode.getChildrenSize`: the cached `__size` of the latest
version of the node (`0` if the key does not resolve). -/
def getChildrenSize (s : EState) (k : NodeKey) : Int :=
  ((findNode s.nodeMap k).map Node.size).getD 0

/-- Loop of `LexicalNode.getIndexWithinParent`. -/
def getIndexWithinParentLoop (s : EState) :
    Nat → Option Node → NodeKey → Int → Int
  | 0, _, _, _ => -1
  | _ + 1, none, _, _ => -1
  | f + 1, some next, k, index =>
      if k = next.key then index
      else getIndexWithinParentLoop s f (getNextSibling s next.key) k (index + 1)

/-- `LexicalNode.getIndexWithinParent`: walk the parent's child list from
`firstChild` via `getNextSibling`, counting; `-1` when there is no parent
or the node is not found among its parent's children. -/
def getIndexWithinParent (s : EState) (k : NodeKey) : Int :=
  match getParent s k with
  | none => -1
  | some parent => getIndexWithinParentLoop s (walkFuel s) (getFirstChild s parent.key) k 0

/-- Loop of `ElementNode.getChildAtIndex`, translated faithfully: the
source declares `const count = 0;` and never increments it, so `count`
is passed along unchanged and the comparison `count === index + 1` can
only succeed when `index` is `-1`. -/
def getChildAtIndexLoop (s : EState) :
    Nat → Option NodeKey → Int → Int → Option Node
  | 0, _, _, _ => none
  | _ + 1, none, _, _ => none
  | f + 1, some nextK, count, index =>
      match findNode s.nodeMap nextK with
      | none => none
      | some childNode =>
          if count = index + 1 then some childNode
          else getChildAtIndexLoop s f childNode.next count index

/-- `ElementNode.getChildAtIndex`: returns the first child at index `0`,
otherwise runs the loop above with `count = 0`. -/
def getChildAtIndex (s : EState) (k : NodeKey) (index : Int) : Option Node :=
  match findNode s.nodeMap k with
  | none => none
  | some self =>
      match self.first with
      | none => none
      | some firstK =>
          if index = 0 then findNode s.nodeMap firstK
          else getChildAtIndexLoop s (walkFuel s) (some firstK) 0 index

/-- Loop of `ElementNode.forEachChild`: follow `__first`/`__next`,
stopping when a key fails to resolve. -/
def forEachChildKeys (s : EState) : Nat → Option NodeKey → List NodeKey
  | 0, _ => []
  | _ + 1, none => []
  | f + 1, some nextK =>
      match findNode s.nodeMap nextK with
      | none => []
      | some childNode => childNode.key :: forEachChildKeys s f childNode.next

/-- `ElementNode.getChildrenKeys` (also the child enumeration used by
`getChildren` and the `__size` recount in `splice`). -/
def getChildrenKeys (s : EState) (k : NodeKey) : List NodeKey :=
  match findNode s.nodeMap k with
  | none => []
  | some self => forEachChildKeys s (walkFuel s) self.first

/-- Inner loop of `ElementNode.getLastDescendant`. -/
def getLastDescendantLoop (s : EState) : Nat → Node → Option Node
  | 0, node => some node
  | f + 1, node =>
      if node.isElem then
        match getLastChild s node.key with
        | some child => getLastDescendantLoop s f child
        | none => some node
      else some node

/-- `ElementNode.getLastDescendant`. -/
def getLastDescendant (s : EState) (k : NodeKey) : Option Node :=
  match getLastChild s k with
  | none => none
  | some node => getLastDescendantLoop s (walkFuel s) node

/-- Loop of `LexicalNode.getParents`, collecting ancestor keys (nodes are
compared by key, which in the source corresponds to object identity of
the map entries). -/
def getParentsLoop (s : EState) : Nat → Option Node → List NodeKey
  | 0, _ => []
  | _ + 1, none => []
  | f + 1, some node => node.key :: getParentsLoop s f (getParent s node.key)

/-- `LexicalNode.getParents`. -/
def getParents (s : EState) (k : NodeKey) : List NodeKey :=
  getParentsLoop s (walkFuel s) (getParent s k)

/-- Loop of `LexicalNode.isParentOf`: walk `targetNode`'s parent chain
looking for `key`.  `none` models the `getLatest` throw on a key that is
absent from the mapping. -/
def isParentOfLoop (s : EState) : Nat → Option NodeKey → NodeKey → Option Bool
  | 0, _, _ => none
  | _ + 1, none, _ => some false
  | f + 1, some curK, key =>
      if curK = key then some true
      else
        match findNode s.nodeMap curK with
        | none => none
        | some n =>
            isParentOfLoop s f
              (n.parent.bind fun pk =>
                if (findNode s.nodeMap pk).isSome then some pk else none) key

/-- `LexicalNode.isParentOf` (receiver `selfK`, argument `targetK`):
true when `selfK` is a proper ancestor of `targetK`. -/
def isParentOf (s : EState) (selfK targetK : NodeKey) : Option Bool :=
  if selfK = targetK then some false
  else isParentOfLoop s (walkFuel s) (some targetK) selfK

/-- `LexicalNode.getCommonAncestor`: prepend the receiver (when it is an
element) to its ancestor list, require the two lists to share their last
entry, and return the first entry of the receiver's list that also occurs
in the argument's list. -/
def getCommonAncestor (s : EState) (selfK targetK : NodeKey) : Option NodeKey :=
  let a0 := getParents s selfK
  let b0 := getParents s targetK
  let a := if ((findNode s.nodeMap selfK).map Node.isElem).getD false then selfK :: a0 else a0
  let b := if ((findNode s.nodeMap targetK).map Node.isElem).getD false then targetK :: b0 else b0
  if a.length = 0 ∨ b.length = 0 ∨ a.getLast? ≠ b.getLast? then none
  else a.find? fun x => decide (x ∈ b)

/-- Climb loop of `LexicalNode.isBefore`: follow `getParentOrThrow` until
the parent is the common ancestor, then return that child's
index-within-parent.  `none` models the `getParentOrThrow` throw. -/
def isBeforeClimb (s : EState) : Nat → NodeKey → Option NodeKey → Option Int
  | 0, _, _ => none
  | f + 1, curK, commonAncestor =>
      match getParent s curK with
      | none => none
      | some parent =>
          if some parent.key = commonAncestor then some (getIndexWithinParent s curK)
          else isBeforeClimb s f parent.key commonAncestor

/-- `LexicalNode.isBefore`: ancestor checks first (`targetNode.isParentOf(this)`
returns `true`, `this.isParentOf(targetNode)` returns `false`), then the
two branch indices at the common ancestor are compared. -/
def isBefore (s : EState) (selfK targetK : NodeKey) : Option Bool :=
  match isParentOf s targetK selfK with
  | none => none
  | some true => some true
  | some false =>
      match isParentOf s selfK targetK with
      | none => none
      | some true => some false
      | some false =>
          let commonAncestor := getCommonAncestor s selfK targetK
          match isBeforeClimb s (walkFuel s) selfK commonAncestor with
          | none => none
          | some indexA =>
              match isBeforeClimb s (walkFuel s) targetK commonAncestor with
              | none => none
              | some indexB => some (decide (indexA < indexB))

/-- Specification-side forward walk (§8 structural integrity): the keys
visited from a given start key by following `next`. -/
def childWalkAux (s : EState) : Nat → Option NodeKey → List NodeKey
  | 0, _ => []
  | _ + 1, none => []
  | f + 1, some k =>
      k :: (match findNode s.nodeMap k with
            | none => []
            | some n => childWalkAux s f n.next)

/-- Specification-side forward walk of an element's children from
`firstChild` via `next`. -/
def childWalk (s : EState) (pk : NodeKey) : List NodeKey :=
  match findNode s.nodeMap pk with
  | none => []
  | some p => childWalkAux s (walkFuel s) p.first

/-- Specification-side backward walk from a start key via `prev`. -/
def childWalkBackAux (s : EState) : Nat → Option NodeKey → List NodeKey
  | 0, _ => []
  | _ + 1, none => []
  | f + 1, some k =>
      k :: (match findNode s.nodeMap k with
            | none => []
            | some n => childWalkBackAux s f n.prev)

/-- Specification-side backward walk of an element's children from
`lastChild` via `prev`. -/
def childWalkBack (s : EState) (pk : NodeKey) : List NodeKey :=
  match findNode s.nodeMap pk with
  | none => []
  | some p => childWalkBackAux s (walkFuel s) p.last

/-- `errorOnReadOnly` (LexicalUpdates): throws `ReadOnlyViolation` unless a
transaction is open. -/
def errorOnReadOnly : M Unit := do
  let s ← getS
  if s.txnOpen then pure () else throwM .readOnly

/-- `LexicalNode.getLatest`: looks the key up in the pending mapping and
throws (`getLatest: node not found`) when it is absent. -/
def getLatestM (k : NodeKey) : M Node := do
  let s ← getS
  match findNode s.nodeMap k with
  | none => throwM .getLatestNotFound
  | some n => pure n

/-- State effect of marking a node dirty: element keys go to the dirty
element set, other keys to the dirty leaf set. -/
def markDirtyState (n : Node) (s : EState) : EState :=
  { s with
    dirtyElements := if n.isElem then addKey s.dirtyElements n.key else s.dirtyElements,
    dirtyLeaves := if n.isElem then s.dirtyLeaves else addKey s.dirtyLeaves n.key }

/-- Modelled from the spec: `internalMarkNodeAsDirty` (LexicalUtils, not in
the snapshot).  §2 Dirty Tracker: records, per transaction, which element
nodes and which leaf (non-element) nodes were touched. -/
def internalMarkNodeAsDirty (n : Node) : M Unit :=
  modifyS (markDirtyState n)

/-- `LexicalNode.getWritable`: requires an open transaction; if the key is
in `_cloneNotNeeded` the latest node is re-marked dirty and returned,
otherwise `constructor.clone` runs (observable through `cloneCount`), the
variant fields are carried over (our value copy carries every field), the
key is added to `_cloneNotNeeded`, the clone is marked dirty and replaces
the map entry. -/
def getWritable (k : NodeKey) : M Node := do
  errorOnReadOnly
  let latestNode ← getLatestM k
  let s ← getS
  if k ∈ s.cloneNotNeeded then do
    internalMarkNodeAsDirty latestNode
    pure latestNode
  else do
    let mutableNode := { latestNode with key := k }
    modifyS fun s1 =>
      { s1 with cloneCount := s1.cloneCount + 1,
                cloneNotNeeded := addKey s1.cloneNotNeeded k }
    internalMarkNodeAsDirty mutableNode
    modifyS fun s1 => { s1 with nodeMap := setEntry s1.nodeMap k mutableNode }
    pure mutableNode

/-- A direct field assignment on a node that the surrounding operation has
already obtained via `getWritable` (in the source such writes mutate the
writable object in place, which is the map entry). -/
def modifyNodeRaw (k : NodeKey) (f : Node → Node) : M Unit :=
  modifyS fun s =>
    match findNode s.nodeMap k with
    | none => s
    | some n => { s with nodeMap := setEntry s.nodeMap k (f n) }

/-- `LexicalNode.setPrev`: `this.getWritable().__prev = key`. -/
def setPrev (k : NodeKey) (v : Option NodeKey) : M Unit := do
  let _ ← getWritable k
  modifyNodeRaw k fun n => { n with prev := v }

/-- `LexicalNode.setNext`: `this.getWritable().__next = key`. -/
def setNext (k : NodeKey) (v : Option NodeKey) : M Unit := do
  let _ ← getWritable k
  modifyNodeRaw k fun n => { n with next := v }

/-- Modelled from the spec: `removeFromParent` (LexicalUtils, not in the
snapshot).  §4.2/§3: detaches a node from its current parent — repairs the
parent's `firstChild`/`lastChild` and the siblings' `prev`/`next` around
it, clears the node's own `parent`/`prev`/`next` (a detached node's links
name no child list), and decrements the parent's `childCount`.  A node
with no (resolvable) parent is left untouched. -/
def removeFromParent (k : NodeKey) : M Unit := do
  let s ← getS
  match findNode s.nodeMap k with
  | none => pure ()
  | some node =>
      match node.parent with
      | none => pure ()
      | some pk =>
          match findNode s.nodeMap pk with
          | none => pure ()
          | some _ => do
              let w ← getWritable k
              let _ ← getWritable pk
              (match w.prev with
               | some prevK => do
                   let _ ← getWritable prevK
                   modifyNodeRaw prevK fun n => { n with next := w.next }
               | none => modifyNodeRaw pk fun p => { p with first := w.next })
              (match w.next with
               | some nextK => do
                   let _ ← getWritable nextK
                   modifyNodeRaw nextK fun n => { n with prev := w.prev }
               | none => modifyNodeRaw pk fun p => { p with last := w.prev })
              modifyNodeRaw k fun n => { n with prev := none, next := none, parent := none }
              modifyNodeRaw pk fun p => { p with size := p.size - 1 }

/-- `LexicalNode.getParentOrThrow`. -/
def getParentOrThrow (k : NodeKey) : M Node := do
  let s ← getS
  match getParent s k with
  | none => throwM .noParent
  | some p => pure p

/-- Modelled from the spec: a selection point assignment (`PointType.set`,
LexicalSelection, not in the snapshot): overwrite the anchor (or focus) of
the current range selection, if any. -/
def setPoint (isAnchor : Bool) (pt : Point) : M Unit :=
  modifyS fun s =>
    match s.selection with
    | none => s
    | some sel =>
        if isAnchor then { s with selection := some { sel with anchor := pt } }
        else { s with selection := some { sel with focus := pt } }

/-- End offset of a node for select-at-end semantics: child count for
elements, text length for leaves. -/
def endOffsetOf (n : Node) : Int := if n.isElem then n.size else n.textSize

/-- Offset kind a point takes when placed on a node. -/
def pointTypeOf (n : Node) : PtType := if n.isElem then .element else .text

/-- Modelled from the spec: `moveSelectionPointToSibling` (LexicalSelection,
not in the snapshot).  §4.4 repair contract: when a point's node is
deleted, re-anchor the point to the previous sibling at its end offset if
one was supplied; else to the next sibling at offset 0; else to the parent
element at the index the deleted node occupied. -/
def moveSelectionPointToSibling (isAnchor : Bool) (nodeK parentK : NodeKey)
    (prevSibling nextSibling : Option Node) : M Unit := do
  let s ← getS
  let pt : Point :=
    match prevSibling with
    | some p => { key := p.key, offset := endOffsetOf p, ptype := pointTypeOf p }
    | none =>
        match nextSibling with
        | some nx => { key := nx.key, offset := 0, ptype := pointTypeOf nx }
        | none =>
            { key := parentK, offset := getIndexWithinParent s nodeK, ptype := .element }
  setPoint isAnchor pt

/-- Adjustment of one point by
`$updateElementSelectionOnCreateDeleteNode`. -/
def adjustPointOnCreateDelete (pk : NodeKey) (nodeOffset times : Int) (pt : Point) : Point :=
  if pt.ptype = .element ∧ pt.key = pk ∧ nodeOffset ≤ pt.offset then
    { pt with offset := pt.offset + times }
  else pt

/-- Modelled from the spec: `$updateElementSelectionOnCreateDeleteNode`
(LexicalSelection, not in the snapshot).  §1/§4.4: child-index selection
points on an element shift when children are created or deleted at an
index at or before their offset. -/
def updateElementSelectionOnCreateDeleteNode (pk : NodeKey) (nodeOffset times : Int) : M Unit :=
  modifyS fun s =>
    match s.selection with
    | none => s
    | some sel =>
        { s with
          selection := some
            { anchor := adjustPointOnCreateDelete pk nodeOffset times sel.anchor,
              focus := adjustPointOnCreateDelete pk nodeOffset times sel.focus } }

/-- Modelled from the spec: `internalMakeRangeSelection` (LexicalSelection,
not in the snapshot): installs a fresh range selection with the given
points. -/
def internalMakeRangeSelection (aK : NodeKey) (aOff : Int) (fK : NodeKey) (fOff : Int)
    (aT fT : PtType) : M Unit :=
  modifyS fun s =>
    { s with
      selection := some
        { anchor := { key := aK, offset := aOff, ptype := aT },
          focus := { key := fK, offset := fOff, ptype := fT } } }

/-- Modelled from the spec: `$moveSelectionPointToEnd` (LexicalSelection,
not in the snapshot).  §4.2 `replace`: a point pinned to the replaced key
moves to the replacement's end. -/
def moveSelectionPointToEnd (isAnchor : Bool) (n : Node) : M Unit :=
  setPoint isAnchor { key := n.key, offset := endOffsetOf n, ptype := pointTypeOf n }

/-- `ElementNode.select`: offsets default to the current child count
(select-at-end); makes a fresh range selection when none exists,
otherwise overwrites both points. -/
def select (k : NodeKey) (anchorOff focusOff : Option Int) : M Unit := do
  errorOnReadOnly
  let s ← getS
  let childrenCount := getChildrenSize s k
  let anchorOffset := anchorOff.getD childrenCount
  let focusOffset := focusOff.getD childrenCount
  match s.selection with
  | none => internalMakeRangeSelection k anchorOffset k focusOffset .element .element
  | some _ => do
      setPoint true { key := k, offset := anchorOffset, ptype := .element }
      setPoint false { key := k, offset := focusOffset, ptype := .element }

/-- Modelled from the spec: `TextNode.select` (TextNode source not in the
snapshot).  §4.4 select-at-end semantics: offsets default to the end of
the text content. -/
def selectText (k : NodeKey) (anchorOff focusOff : Option Int) : M Unit := do
  errorOnReadOnly
  let s ← getS
  let tSize := ((findNode s.nodeMap k).map Node.textSize).getD 0
  let aOff := anchorOff.getD tSize
  let fOff := focusOff.getD tSize
  match s.selection with
  | none => internalMakeRangeSelection k aOff k fOff .text .text
  | some _ => do
      setPoint true { key := k, offset := aOff, ptype := .text }
      setPoint false { key := k, offset := fOff, ptype := .text }

/-- `LexicalNode.selectPrevious`. -/
def selectPrevious (k : NodeKey) (anchorOff focusOff : Option Int) : M Unit := do
  errorOnReadOnly
  let s ← getS
  let prevSibling := getPreviousSibling s k
  match getParent s k with
  | none => throwM .noParent
  | some parent =>
      match prevSibling with
      | none => select parent.key (some 0) (some 0)
      | some prev =>
          if prev.isElem then select prev.key none none
          else if prev.isText then selectText prev.key anchorOff focusOff
          else do
            let index := getIndexWithinParent s prev.key + 1
            select parent.key (some index) (some index)

/-- `LexicalNode.selectNext`. -/
def selectNext (k : NodeKey) (anchorOff focusOff : Option Int) : M Unit := do
  errorOnReadOnly
  let s ← getS
  let nextSibling := getNextSibling s k
  match getParent s k with
  | none => throwM .noParent
  | some parent =>
      match nextSibling with
      | none => select parent.key none none
      | some nx =>
          if nx.isElem then select nx.key (some 0) (some 0)
          else if nx.isText then selectText nx.key anchorOff focusOff
          else do
            let index := getIndexWithinParent s nx.key
            select parent.key (some index) (some index)

/-- `ElementNode.selectEnd`: select at the last descendant (element/text),
via `selectNext` for other leaves, or at the element itself when empty. -/
def selectEnd (k : NodeKey) : M Unit := do
  let s ← getS
  match getLastDescendant s k with
  | some lastNode =>
      if lastNode.isElem then select lastNode.key none none
      else if lastNode.isText then selectText lastNode.key none none
      else selectNext lastNode.key none none
  | none => select k none none

/-- `removeNode` (LexicalNode.js): requires an open transaction; a node
whose `getParent()` is `null` is a silent no-op; otherwise any selection
point on the node is repaired against its current siblings, the node is
unlinked, element selection offsets on the parent are adjusted, and — if
the parent became empty, is not Root, is not preserved and its variant
cannot be empty — the parent is removed recursively; an emptied Root gets
`selectEnd` instead.  The recursion is fuelled; callers pass `walkFuel`,
which bounds any ancestor chain in the mapping. -/
def removeNode : Nat → NodeKey → Bool → Bool → M Unit
  | 0, _, _, _ => throwM .fuelOut
  | fuel + 1, k, restoreSelection, preserveEmptyParent => do
    errorOnReadOnly
    let nodeToRemove ← getLatestM k
    let s ← getS
    match nodeToRemove.parent.bind fun pk => (findNode s.nodeMap pk).map fun p => (pk, p) with
    | none => pure ()
    | some (parentK, parentNode) => do
        let selectionMoved ←
          match s.selection with
          | none => pure false
          | some sel =>
              if restoreSelection then do
                let moved1 ←
                  if sel.anchor.key = k then do
                    let s1 ← getS
                    moveSelectionPointToSibling true k parentK
                      (getPreviousSibling s1 k) (getNextSibling s1 k)
                    pure true
                  else pure false
                let moved2 ←
                  if sel.focus.key = k then do
                    let s2 ← getS
                    moveSelectionPointToSibling false k parentK
                      (getPreviousSibling s2 k) (getNextSibling s2 k)
                    pure true
                  else pure false
                pure (moved1 || moved2)
              else pure false
        let s3 ← getS
        let index := getIndexWithinParent s3 k
        if index = -1 then throwM .notChildOfParent else do
        let _ ← getWritable k
        removeFromParent k
        if s.selection.isSome ∧ restoreSelection = true ∧ selectionMoved = false then
          updateElementSelectionOnCreateDeleteNode parentK index (-1)
        let s4 ← getS
        if preserveEmptyParent = false ∧ parentNode.isRoot = false ∧
            parentNode.canBeEmpty = false ∧ getChildrenSize s4 parentK = 0 then
          removeNode fuel parentK restoreSelection false
        let s5 ← getS
        if parentNode.isRoot = true ∧ getChildrenSize s5 parentK = 0 then
          selectEnd parentK

/-- `LexicalNode.remove`: `errorOnReadOnly(); removeNode(this, true,
preserveEmptyParent)`. -/
def remove (k : NodeKey) (preserveEmptyParent : Bool) : M Unit := do
  errorOnReadOnly
  let s ← getS
  removeNode (walkFuel s) k true preserveEmptyParent

/-- `LexicalNode.replace`: detach the replacement, remove the node without
selection restore, then relink the replacement using the removed node's
(already cleared) sibling pointers, and move any selection point or
composition reference pinned to the removed key onto the replacement. -/
def replace (k rk : NodeKey) : M NodeKey := do
  errorOnReadOnly
  let toReplaceKey := k
  let writableReplaceWith ← getWritable rk
  removeFromParent rk
  let newParent ← getParentOrThrow k
  let _ ← getWritable newParent.key
  let s ← getS
  let index := getIndexWithinParent s k
  let newKey := writableReplaceWith.key
  if index = -1 then throwM .notChildOfParent else do
  let s1 ← getS
  removeNode (walkFuel s1) k false false
  let s2 ← getS
  (match getPreviousSibling s2 k with
   | some prevSibling => do
       setNext prevSibling.key (some newKey)
       setPrev rk (some prevSibling.key)
   | none => modifyNodeRaw newParent.key fun p => { p with first := some newKey })
  let s2b ← getS
  (match getNextSibling s2b k with
   | some nextSibling => do
       setPrev nextSibling.key (some newKey)
       setNext rk (some nextSibling.key)
   | none => modifyNodeRaw newParent.key fun p => { p with last := some newKey })
  modifyNodeRaw rk fun n => { n with parent := some newParent.key }
  let s3 ← getS
  (match s3.selection with
   | none => pure ()
   | some sel => do
       (if sel.anchor.key = toReplaceKey then do
          let s4 ← getS
          match findNode s4.nodeMap rk with
          | some wr => moveSelectionPointToEnd true wr
          | none => pure ()
        else pure ())
       (if sel.focus.key = toReplaceKey then do
          let s4 ← getS
          match findNode s4.nodeMap rk with
          | some wr => moveSelectionPointToEnd false wr
          | none => pure ()
        else pure ()))
  let s5 ← getS
  if s5.compositionKey = some toReplaceKey then
    modifyS fun st => { st with compositionKey := some newKey }
  pure newKey

/-- `LexicalNode.insertAfter`. -/
def insertAfter (k nk : NodeKey) : M NodeKey := do
  errorOnReadOnly
  let _writableSelf ← getWritable k
  let _writableNodeToInsert ← getWritable nk
  let s ← getS
  let oldParent := getParent s nk
  let oldIndex := getIndexWithinParent s nk
  let flags ←
    match oldParent with
    | none => pure (false, false)
    | some op => do
        removeFromParent nk
        match s.selection with
        | none => pure (false, false)
        | some sel =>
            pure
              (decide (sel.anchor.ptype = .element ∧ sel.anchor.key = op.key ∧
                 sel.anchor.offset = oldIndex + 1),
               decide (sel.focus.ptype = .element ∧ sel.focus.key = op.key ∧
                 sel.focus.offset = oldIndex + 1))
  let parent ← getParentOrThrow k
  let _ ← getWritable parent.key
  let insertKey := nk
  let s0 ← getS
  modifyNodeRaw nk fun n => { n with parent := (findNode s0.nodeMap k).bind Node.parent }
  let s1 ← getS
  let index := getIndexWithinParent s1 k
  if index = -1 then throwM .notChildOfParent else do
  let s2 ← getS
  (match getNextSibling s2 k with
   | some nextSibling => do
       setPrev nextSibling.key (some insertKey)
       setNext nk (some nextSibling.key)
   | none => modifyNodeRaw parent.key fun p => { p with last := some insertKey })
  setNext k (some insertKey)
  setPrev nk (some k)
  modifyNodeRaw parent.key fun p => { p with size := p.size + 1 }
  let s3 ← getS
  (match s3.selection with
   | none => pure ()
   | some _ => do
       updateElementSelectionOnCreateDeleteNode parent.key (index + 1) 1
       (if flags.1 then
          setPoint true { key := parent.key, offset := index + 2, ptype := .element }
        else pure ())
       (if flags.2 then
          setPoint false { key := parent.key, offset := index + 2, ptype := .element }
        else pure ()))
  pure nk

/-- `LexicalNode.insertBefore`. -/
def insertBefore (k nk : NodeKey) : M NodeKey := do
  errorOnReadOnly
  let _writableSelf ← getWritable k
  let _writableNodeToInsert ← getWritable nk
  removeFromParent nk
  let parent ← getParentOrThrow k
  let _ ← getWritable parent.key
  let insertKey := nk
  let s0 ← getS
  modifyNodeRaw nk fun n => { n with parent := (findNode s0.nodeMap k).bind Node.parent }
  let s1 ← getS
  let index := getIndexWithinParent s1 k
  if index = -1 then throwM .notChildOfParent else do
  let s2 ← getS
  (match getPreviousSibling s2 k with
   | some prevSibling => do
       setNext prevSibling.key (some insertKey)
       setPrev nk (some prevSibling.key)
   | none => modifyNodeRaw parent.key fun p => { p with first := some insertKey })
  setPrev k (some insertKey)
  setNext nk (some k)
  modifyNodeRaw parent.key fun p => { p with size := p.size + 1 }
  let s3 ← getS
  (match s3.selection with
   | none => pure ()
   | some _ => updateElementSelectionOnCreateDeleteNode parent.key index 1)
  pure nk

/-- Per-node loop of `ElementNode.append`: make each node writable, reject
self-append, detach, reparent, and chain `prev`/`next` along the appended
run. -/
def appendLoop (selfKey : NodeKey) (prevK : Option NodeKey) : List NodeKey → M Unit
  | [] => pure ()
  | node :: rest => do
      let _ ← getWritable node
      if node = selfKey then throwM .appendSelf else do
      removeFromParent node
      modifyNodeRaw node fun n => { n with parent := some selfKey }
      setPrev node prevK
      setNext node rest.head?
      appendLoop selfKey (some node) rest

/-- `ElementNode.append`: append a run of nodes at the end of the child
list, updating `firstChild`/`lastChild`/`childCount`. -/
def append (k : NodeKey) (nodesToAppend : List NodeKey) : M NodeKey := do
  errorOnReadOnly
  if nodesToAppend.isEmpty then pure k else do
  let _self ← getWritable k
  appendLoop k none nodesToAppend
  (match nodesToAppend.head?, nodesToAppend.getLast? with
   | some firstK, some lastK => do
       let s ← getS
       match (findNode s.nodeMap k).bind Node.last with
       | none =>
           modifyNodeRaw k fun p =>
             { p with first := some firstK, last := some lastK,
                      size := Int.ofNat nodesToAppend.length }
       | some selfLast => do
           let s1 ← getS
           if (findNode s1.nodeMap selfLast).isSome then do
             setNext selfLast (some firstK)
             setPrev firstK (some selfLast)
             modifyNodeRaw k fun p =>
               { p with last := some lastK, size := p.size + Int.ofNat nodesToAppend.length }
           else throwM .getLatestNotFound
   | _, _ => pure ())
  pure k

/-- First loop of `ElementNode.splice`: make each node-to-insert writable,
reject self-insert (the source reuses the `append` invariant message),
detach it and reparent it to the spliced element. -/
def spliceInsertLoop (selfKey : NodeKey) : List NodeKey → M Unit
  | [] => pure ()
  | nodeK :: rest => do
      let _ ← getWritable nodeK
      if nodeK = selfKey then throwM .appendSelf else do
      removeFromParent nodeK
      modifyNodeRaw nodeK fun n => { n with parent := some selfKey }
      spliceInsertLoop selfKey rest

/-- Link loop of `ElementNode.splice`: chain the inserted run's
`prev`/`next` pointers (the first element's `prev` and the last element's
`next` are left as they are). -/
def spliceLinkLoop (prevK : Option NodeKey) : List NodeKey → M Unit
  | [] => pure ()
  | key :: rest => do
      (match prevK with
       | some pk => setPrev key (some pk)
       | none => pure ())
      (match rest.head? with
       | some nk => setNext key (some nk)
       | none => pure ())
      spliceLinkLoop (some key) rest

/-- Removed-run collection of `ElementNode.splice`: walk from
`getChildAtIndex(start)` via `getNextSibling` while fewer than
`deleteCount` nodes have been collected. -/
def spliceCollectRemove (s : EState) :
    Nat → Option Node → Int → Int → List NodeKey
  | 0, _, _, _ => []
  | _ + 1, none, _, _ => []
  | f + 1, some nextNode, deletedCount, deleteCount =>
      if deletedCount < deleteCount then
        nextNode.key ::
          spliceCollectRemove s f (getNextSibling s nextNode.key) (deletedCount + 1) deleteCount
      else []

/-- Unlink loop of `ElementNode.splice`: clear `__parent` of each removed
node that still resolves. -/
def spliceUnlinkLoop : List NodeKey → M Unit
  | [] => pure ()
  | rk :: rest => do
      let s ← getS
      (match findNode s.nodeMap rk with
       | none => pure ()
       | some _ => do
           let _ ← getWritable rk
           modifyNodeRaw rk fun n => { n with parent := none })
      spliceUnlinkLoop rest

/-- `isPointRemoved` climb of `ElementNode.splice`: a point is removed when
some ancestor-or-self of its node is in the removed-key set and not in the
inserted-key set. -/
def isPointRemovedLoop (s : EState) (removeSet insertSet : List NodeKey) :
    Nat → Option Node → Bool
  | 0, _ => false
  | _ + 1, none => false
  | f + 1, some node =>
      if node.key ∈ removeSet ∧ node.key ∉ insertSet then true
      else isPointRemovedLoop s removeSet insertSet f (getParent s node.key)

/-- `ElementNode.splice`: the general child-list edit primitive.  Inserted
nodes are detached and reparented; the children adjacent to the affected
range (via `getChildAtIndex`) are marked dirty; the inserted run is
chained and linked between `startNode` and `endNode`; `__size` is
recomputed by re-walking the list; when nodes were collected for removal
and a range selection exists, points on removed nodes are repaired against
the boundary nodes, the removed nodes' `__parent` is cleared, and an
emptied non-root element that cannot be empty removes itself. -/
def splice (k : NodeKey) (start deleteCount : Int) (nodesToInsert : List NodeKey) :
    M NodeKey := do
  errorOnReadOnly
  let _writableSelf ← getWritable k
  let nodesToInsertKeys := nodesToInsert
  spliceInsertLoop k nodesToInsert
  let s1 ← getS
  let nodeBeforeRangeK := (getChildAtIndex s1 k (start - 1)).map Node.key
  (match getChildAtIndex s1 k (start - 1) with
   | some nb => internalMarkNodeAsDirty nb
   | none => pure ())
  let s2 ← getS
  let nodeAfterRangeK := (getChildAtIndex s2 k (start + deleteCount)).map Node.key
  (match getChildAtIndex s2 k (start + deleteCount) with
   | some na => internalMarkNodeAsDirty na
   | none => pure ())
  spliceLinkLoop none nodesToInsertKeys
  let s3 ← getS
  let firstNodeKeyToInsert := nodesToInsertKeys.head?
  let lastNodeKeyToInsert := nodesToInsertKeys.getLast?
  let startNodeK := if start = 0 then none else (getChildAtIndex s3 k (start - 1)).map Node.key
  let endNodeK :=
    if getChildrenSize s3 k ≤ start then none
    else (getChildAtIndex s3 k (start + deleteCount)).map Node.key
  let nodesToRemoveKeys :=
    spliceCollectRemove s3 (walkFuel s3) (getChildAtIndex s3 k start) 0 deleteCount
  let firstNodeToInsert := firstNodeKeyToInsert.bind (findNode s3.nodeMap)
  let lastNodeToInsert := lastNodeKeyToInsert.bind (findNode s3.nodeMap)
  (match firstNodeToInsert, lastNodeToInsert with
   | some firstN, some lastN => do
       (match startNodeK with
        | none => modifyNodeRaw k fun p => { p with first := firstNodeKeyToInsert }
        | some sk => do
            setNext sk (some firstN.key)
            setPrev firstN.key (some sk))
       (match endNodeK with
        | none => modifyNodeRaw k fun p => { p with last := lastNodeKeyToInsert }
        | some ek => do
            setNext lastN.key (some ek)
            setPrev ek (some lastN.key))
   | _, _ => pure ())
  let s4 ← getS
  modifyNodeRaw k fun p => { p with size := Int.ofNat (getChildrenKeys s4 k).length }
  if nodesToRemoveKeys.isEmpty then pure k else do
  let s5 ← getS
  match s5.selection with
  | none => pure k
  | some sel => do
      let anchorRemoved :=
        isPointRemovedLoop s5 nodesToRemoveKeys nodesToInsertKeys (walkFuel s5)
          (findNode s5.nodeMap sel.anchor.key)
      (if anchorRemoved then do
         let s6 ← getS
         moveSelectionPointToSibling true sel.anchor.key k
           (nodeBeforeRangeK.bind (findNode s6.nodeMap))
           (nodeAfterRangeK.bind (findNode s6.nodeMap))
       else pure ())
      let s7 ← getS
      let focusRemoved :=
        isPointRemovedLoop s7 nodesToRemoveKeys nodesToInsertKeys (walkFuel s7)
          (findNode s7.nodeMap sel.focus.key)
      (if focusRemoved then do
         let s8 ← getS
         moveSelectionPointToSibling false sel.focus.key k
           (nodeBeforeRangeK.bind (findNode s8.nodeMap))
           (nodeAfterRangeK.bind (findNode s8.nodeMap))
       else pure ())
      spliceUnlinkLoop nodesToRemoveKeys
      let s9 ← getS
      (if getChildrenSize s9 k = 0 ∧
          ((findNode s9.nodeMap k).map Node.canBeEmpty).getD true = false ∧
          ((findNode s9.nodeMap k).map Node.isRoot).getD false = false then
         remove k false
       else pure ())
      pure k

/-- Removal loop of `ElementNode.clear`. -/
def clearLoop : List NodeKey → M Unit
  | [] => pure ()
  | c :: rest => do
      remove c false
      clearLoop rest

/-- `ElementNode.clear`: snapshot the child list, then `remove` each
child. -/
def clear (k : NodeKey) : M NodeKey := do
  errorOnReadOnly
  let _ ← getWritable k
  let s ← getS
  clearLoop (getChildrenKeys s k)
  pure k

/-- The element format type (`'left' | 'center' | 'right' | 'justify'`). -/
inductive ElementFormatType where
  | left
  | center
  | right
  | justify
  deriving Repr, DecidableEq

/-- Modelled from the spec: `ELEMENT_TYPE_TO_FORMAT` (LexicalConstants, not
in the snapshot): the format bit flag for each element format type. -/
def elementTypeToFormat : ElementFormatType → Int
  | .left => 1
  | .center => 2
  | .right => 4
  | .justify => 8

/-- `ElementNode.setDirection`. -/
def setDirection (k : NodeKey) (direction : Option Dir) : M NodeKey := do
  errorOnReadOnly
  let _ ← getWritable k
  modifyNodeRaw k fun n => { n with dir := direction }
  pure k

/-- `ElementNode.setFormat`. -/
def setFormat (k : NodeKey) (t : ElementFormatType) : M NodeKey := do
  errorOnReadOnly
  let _ ← getWritable k
  modifyNodeRaw k fun n => { n with format := elementTypeToFormat t }
  pure k

/-- `ElementNode.setIndent`. -/
def setIndent (k : NodeKey) (indentLevel : Int) : M NodeKey := do
  errorOnReadOnly
  let _ ← getWritable k
  modifyNodeRaw k fun n => { n with indent := indentLevel }
  pure k

/-- `LexicalNode.markDirty`: `this.getWritable()`. -/
def markDirty (k : NodeKey) : M Unit := do
  let _ ← getWritable k
  pure ()

/-- The value component of a result. -/
def resOk {α : Type} : Res α → Option α
  | .ok a _ => some a
  | .err _ _ => none

/-- The error component of a result. -/
def resErr {α : Type} : Res α → Option Err
  | .ok _ _ => none
  | .err e _ => some e

/-- The final state carried by a result (JS exceptions keep mutations). -/
def resState {α : Type} : Res α → EState
  | .ok _ s => s
  | .err _ s => s

/-- A text leaf node (detached unless linked). -/
def mkTextNode (k : NodeKey) (parent prev next : Option NodeKey) : Node :=
  { key := k, isElem := false, isRoot := false, isText := true, canBeEmpty := true,
    textSize := 1, parent := parent, prev := prev, next := next, format := 0,
    indent := 0, dir := none, first := none, last := none, size := 0 }

/-- A non-root element node. -/
def mkElemNode (k : NodeKey) (canBeEmpty : Bool) (parent prev next first last : Option NodeKey)
    (size : Int) : Node :=
  { key := k, isElem := true, isRoot := false, isText := false, canBeEmpty := canBeEmpty,
    textSize := 0, parent := parent, prev := prev, next := next, format := 0,
    indent := 0, dir := none, first := first, last := last, size := size }

/-- The root element node. -/
def mkRootNode (k : NodeKey) (first last : Option NodeKey) (size : Int) : Node :=
  { key := k, isElem := true, isRoot := true, isText := false, canBeEmpty := true,
    textSize := 0, parent := none, prev := none, next := none, format := 0,
    indent := 0, dir := none, first := first, last := last, size := size }

/-- A fresh open transaction over a given node mapping: nothing cloned or
dirty yet, no selection. -/
def baseState (m : List (NodeKey × Node)) : EState :=
  { txnOpen := true, nodeMap := m, cloneNotNeeded := [], dirtyElements := [],
    dirtyLeaves := [], selection := none, compositionKey := none, cloneCount := 0 }

/-- Splice scenario of §8: root `0` → element `P = 1` with children
`A,B,C,D = 2,3,4,5`; detached text nodes `X,Y,Z = 6,7,8`. -/
def sC1 : EState := baseState
  [(0, mkRootNode 0 (some 1) (some 1) 1),
   (1, mkElemNode 1 true (some 0) none none (some 2) (some 5) 4),
   (2, mkTextNode 2 (some 1) none (some 3)),
   (3, mkTextNode 3 (some 1) (some 2) (some 4)),
   (4, mkTextNode 4 (some 1) (some 3) (some 5)),
   (5, mkTextNode 5 (some 1) (some 4) none),
   (6, mkTextNode 6 none none none),
   (7, mkTextNode 7 none none none),
   (8, mkTextNode 8 none none none)]

/-- The state after `splice(P, 1, 2, [X,Y,Z])` on `sC1`. -/
def sC1out : EState := resState (splice 1 1 2 [6, 7, 8] sC1)

/-- Replace scenario: root `0` → element `P = 1` with children
`A,B,C = 2,3,4`; detached text node `R = 9`. -/
def sC3 : EState := baseState
  [(0, mkRootNode 0 (some 1) (some 1) 1),
   (1, mkElemNode 1 true (some 0) none none (some 2) (some 4) 3),
   (2, mkTextNode 2 (some 1) none (some 3)),
   (3, mkTextNode 3 (some 1) (some 2) (some 4)),
   (4, mkTextNode 4 (some 1) (some 3) none),
   (9, mkTextNode 9 none none none)]

/-- The state after `replace(B, R)` on `sC3`. -/
def sC3out : EState := resState (replace 3 9 sC3)

/-- Ordering scenario of §8: root `0` → `[A = 1 (element), C = 3]`, and
`B = 2` a child of `A`. -/
def sC4 : EState := baseState
  [(0, mkRootNode 0 (some 1) (some 3) 2),
   (1, mkElemNode 1 true (some 0) none (some 3) (some 2) (some 2) 1),
   (2, mkTextNode 2 (some 1) none none),
   (3, mkTextNode 3 (some 0) (some 1) none)]

/-- Self-append scenario: root `0` → childless element `P = 1`, nothing
dirty yet. -/
def sC5 : EState := baseState
  [(0, mkRootNode 0 (some 1) (some 1) 1),
   (1, mkElemNode 1 true (some 0) none none none none 0)]

/-- The state after the failing `append(P, P)` on `sC5`. -/
def sC5out : EState := resState (append 1 [1] sC5)

/-- Selection-repair scenario: root `0` → element `P = 1` with text
children `A,B = 2,3`, a detached text node `X = 4`, and both selection
points on `B`. -/
def sC9 : EState :=
  { txnOpen := true,
    nodeMap :=
      [(0, mkRootNode 0 (some 1) (some 1) 1),
       (1, mkElemNode 1 true (some 0) none none (some 2) (some 3) 2),
       (2, mkTextNode 2 (some 1) none (some 3)),
       (3, mkTextNode 3 (some 1) (some 2) none),
       (4, mkTextNode 4 none none none)],
    cloneNotNeeded := [], dirtyElements := [], dirtyLeaves := [],
    selection := some { anchor := { key := 3, offset := 0, ptype := .text },
                        focus := { key := 3, offset := 0, ptype := .text } },
    compositionKey := none, cloneCount := 0 }

/-- The state after `splice(P, 0, 2, [X])` on `sC9`. -/
def sC9out : EState := resState (splice 1 0 2 [4] sC9)

/-- Cleanup scenario: root `0` → element `p = 1` with `canBeEmpty` false
and sole text child `n = 2`; no selection. -/
def sC8 : EState := baseState
  [(0, mkRootNode 0 (some 1) (some 1) 1),
   (1, mkElemNode 1 false (some 0) none none (some 2) (some 2) 1),
   (2, mkTextNode 2 (some 1) none none)]

/-- The key of a node's parent, provided both the node and the parent key
resolve in the mapping (the spec's parent link, §3). -/
def parentKeyInMap (s : EState) (k : NodeKey) : Option NodeKey :=
  (findNode s.nodeMap k).bind fun nd => nd.parent.bind fun pk =>
    if (findNode s.nodeMap pk).isSome then some pk else none

/-- Specification-side ancestor chain of a node: the keys reached by
iterating the parent link, nearest first. -/
def ancestorChain (s : EState) : Nat → NodeKey → List NodeKey
  | 0, _ => []
  | f + 1, k =>
      match parentKeyInMap s k with
      | none => []
      | some pk => pk :: ancestorChain s f pk

/-- The parent chain from a key reaches a parentless node within the given
fuel. -/
def chainTerminates (s : EState) : Nat → NodeKey → Bool
  | 0, _ => false
  | f + 1, k =>
      match parentKeyInMap s k with
      | none => true
      | some pk => chainTerminates s f pk

/-- Length of the parent chain (within the given fuel). -/
def chainDepth (s : EState) : Nat → NodeKey → Nat
  | 0, _ => 0
  | f + 1, k =>
      match parentKeyInMap s k with
      | none => 0
      | some pk => chainDepth s f pk + 1

/-- `a` is a proper ancestor of `b` (via parent links, §3). -/
def IsProperAncestor (s : EState) (a b : NodeKey) : Prop :=
  a ∈ ancestorChain s (walkFuel s) b

/-- `c` is a common (proper) ancestor of `a` and `b`. -/
def IsCommonAncestor (s : EState) (a b c : NodeKey) : Prop :=
  IsProperAncestor s c a ∧ IsProperAncestor s c b

/-- `c` is the lowest common ancestor of `a` and `b`: a common ancestor
of which every other common ancestor is a proper ancestor. -/
def IsLCA (s : EState) (a b c : NodeKey) : Prop :=
  IsCommonAncestor s a b c ∧
  ∀ d, IsCommonAncestor s a b d → d = c ∨ IsProperAncestor s d c

/-- The member of `a`'s ancestor-or-self chain that is a direct child of
`c` (the element of `a`'s chain "at" the common ancestor `c`). -/
def branchChild (s : EState) (a c : NodeKey) : Option NodeKey :=
  (a :: ancestorChain s (walkFuel s) a).find? fun x =>
    decide (parentKeyInMap s x = some c)

/-- Well-formedness: every mapping entry's node carries its own key (in
the source, `__key` always equals the map key). -/
def WFKeys (s : EState) : Prop :=
  ∀ e ∈ s.nodeMap, (e : NodeKey × Node).2.key = e.1

/-- Well-formedness: parent links are acyclic — from every key in the
mapping the parent chain reaches a parentless node within `|nodeMap|`
steps. -/
def WFAcyclic (s : EState) : Prop :=
  ∀ e ∈ s.nodeMap, chainTerminates s s.nodeMap.length (e : NodeKey × Node).1 = true

instance (s : EState) (a b : NodeKey) : Decidable (IsProperAncestor s a b) := by
  unfold IsProperAncestor
  infer_instance

instance (s : EState) : Decidable (WFKeys s) := by
  unfold WFKeys
  exact List.decidableBAll _ _

instance (s : EState) : Decidable (WFAcyclic s) := by
  unfold WFAcyclic
  exact List.decidableBAll _ _

/-! ## Lemmas and theorems -/

@[simp] theorem run_bind {α β : Type} (m : M α) (f : α → M β) (s : EState) :
    (m >>= f) s =
      match m s with
      | .ok a s1 => f a s1
      | .err e s1 => .err e s1 := rfl

@[simp] theorem run_pure {α : Type} (a : α) (s : EState) :
    (pure a : M α) s = .ok a s := rfl

@[simp] theorem run_getS (s : EState) : getS s = .ok s s := rfl

@[simp] theorem run_modifyS (f : EState → EState) (s : EState) :
    modifyS f s = .ok () (f s) := rfl

@[simp] theorem run_throwM {α : Type} (e : Err) (s : EState) :
    (throwM e : M α) s = .err e s := rfl

@[simp] theorem findNode_setEntry_eq (l : List (NodeKey × Node)) (k : NodeKey) (n : Node) :
    findNode (setEntry l k n) k = some n := by
  induction l with
  | nil => simp [setEntry, findNode]
  | cons hd tl ih =>
    by_cases h : hd.1 = k
    · simp [setEntry, findNode, h]
    · simp [setEntry, findNode, h, ih]

@[simp] theorem findNode_setEntry_ne (l : List (NodeKey × Node)) (k k1 : NodeKey) (n : Node)
    (h : k1 ≠ k) : findNode (setEntry l k n) k1 = findNode l k1 := by
  induction l with
  | nil => simp [setEntry, findNode, Ne.symm h]
  | cons hd tl ih =>
    by_cases hh : hd.1 = k
    · subst hh
      simp [setEntry, findNode, Ne.symm h]
    · simp [setEntry, findNode, hh, ih]

@[simp] theorem mem_addKey (l : List NodeKey) (k k1 : NodeKey) :
    k1 ∈ addKey l k ↔ k1 ∈ l ∨ k1 = k := by
  unfold addKey
  by_cases h : k ∈ l
  · simp [h]
    intro hk; subst hk; exact h
  · simp [h]

theorem addKey_of_mem {l : List NodeKey} {k : NodeKey} (h : k ∈ l) : addKey l k = l := by
  simp [addKey, h]

/-- Length of an association list is unchanged by `setEntry` on an
existing key. -/
theorem setEntry_length (l : List (NodeKey × Node)) (k : NodeKey) (n : Node) :
    (setEntry l k n).length = if (findNode l k).isSome then l.length else l.length + 1 := by
  induction l with
  | nil => simp [setEntry, findNode]
  | cons hd tl ih =>
    by_cases h : hd.1 = k
    · simp [setEntry, findNode, h]
    · simp only [setEntry, findNode, h, if_false, if_neg h, List.length_cons, ih]
      by_cases h2 : (findNode tl k).isSome <;> simp [h2]

@[simp] theorem markDirtyState_nodeMap (n : Node) (s : EState) :
    (markDirtyState n s).nodeMap = s.nodeMap := rfl

@[simp] theorem markDirtyState_txnOpen (n : Node) (s : EState) :
    (markDirtyState n s).txnOpen = s.txnOpen := rfl

@[simp] theorem markDirtyState_cloneNotNeeded (n : Node) (s : EState) :
    (markDirtyState n s).cloneNotNeeded = s.cloneNotNeeded := rfl

@[simp] theorem markDirtyState_selection (n : Node) (s : EState) :
    (markDirtyState n s).selection = s.selection := rfl

@[simp] theorem markDirtyState_cloneCount (n : Node) (s : EState) :
    (markDirtyState n s).cloneCount = s.cloneCount := rfl

@[simp] theorem markDirtyState_compositionKey (n : Node) (s : EState) :
    (markDirtyState n s).compositionKey = s.compositionKey := rfl

/-- Marking is idempotent once the key is recorded. -/
theorem markDirtyState_of_mem (n : Node) (s : EState)
    (he : n.isElem = true → n.key ∈ s.dirtyElements)
    (hl : n.isElem = false → n.key ∈ s.dirtyLeaves) :
    markDirtyState n s = s := by
  unfold markDirtyState
  cases h : n.isElem
  · rw [if_neg (by simp [h]), if_neg (by simp [h]), addKey_of_mem (hl h)]
  · rw [if_pos (by simp [h]), if_pos (by simp [h]), addKey_of_mem (he h)]

/-- **C1**: the claim says `splice(P, 1, 2, [X,Y,Z])` on children
`[A,B,C,D]` yields `[A,X,Y,Z,D]`, `childCount = 5`, and marks the
boundary nodes `A` and `D` dirty along with `X,Y,Z`.  Evaluating the code
at exactly that input: the child walk is `[A,X,Y,Z]` (`D` is dropped from
the list), `childCount` is 4, and `D` is not marked dirty — the broken
`getChildAtIndex` makes the boundary lookup at index 3 and the removal
walk at index 1 both return `null`. -/
theorem splice_drops_node_after_deleted_range :
    resOk (splice 1 1 2 [6, 7, 8] sC1) = some 1 ∧
    childWalk sC1out 1 = [2, 6, 7, 8] ∧
    (findNode sC1out.nodeMap 1).map Node.size = some 4 ∧
    (2 : NodeKey) ∈ sC1out.dirtyLeaves ∧
    (6 : NodeKey) ∈ sC1out.dirtyLeaves ∧
    (7 : NodeKey) ∈ sC1out.dirtyLeaves ∧
    (8 : NodeKey) ∈ sC1out.dirtyLeaves ∧
    (5 : NodeKey) ∉ sC1out.dirtyLeaves ∧
    (5 : NodeKey) ∉ sC1out.dirtyElements := by decide

/-- **C2**: the claim says `getChildAtIndex` is 0-based: every
`0 ≤ i < childCount` returns the `i+1`-th child and everything else
(including negative `i`) returns `null`.  Evaluating the code on an
element with `childCount = 4`: index 0 gives the first child but indices
1, 2 and 3 give `null`, while index `-1` gives the first child — the
loop's `count` is declared `const count = 0` and never incremented, so
`count === index + 1` only succeeds at `index = -1`. -/
theorem getChildAtIndex_not_zero_based :
    (findNode sC1.nodeMap 1).map Node.size = some 4 ∧
    (getChildAtIndex sC1 1 0).map Node.key = some 2 ∧
    getChildAtIndex sC1 1 1 = none ∧
    getChildAtIndex sC1 1 2 = none ∧
    getChildAtIndex sC1 1 3 = none ∧
    (getChildAtIndex sC1 1 (-1)).map Node.key = some 2 := by decide

/-- **C3**: the claim says that after any committed mutation sequence
(including `replace`) every element's forward walk visits exactly
`childCount` nodes.  Evaluating the code: on `P = [A,B,C]`,
`replace(B, R)` succeeds but leaves `P` with a forward walk of one node
(`[R]`) and `childCount = 2` — `replace` reads the removed node's
siblings only after `removeNode` has already nulled them, so it
overwrites `P.firstChild`/`P.lastChild` with `R`, orphaning `A` and
`C`. -/
theorem replace_breaks_walk_count_invariant :
    resOk (replace 3 9 sC3) = some 9 ∧
    childWalk sC3out 1 = [9] ∧
    childWalkBack sC3out 1 = [9] ∧
    (findNode sC3out.nodeMap 1).map Node.size = some 2 := by decide

/-- **C9**: the claim says a deleted selection point is re-anchored to a
*surviving* sibling (or the parent), so that it never dangles.
Evaluating the code: on `P = [A,B]` with the selection on `B`,
`splice(P, 0, 2, [X])` deletes both `A` and `B`, yet re-anchors both
points to `A` — which is itself deleted (`A.parent` is nulled and `A` is
no longer in `P`'s child list) — because the buggy
`getChildAtIndex(start - 1)` returns the first child for `start = 0`
instead of `null`. -/
theorem splice_moves_selection_to_deleted_node :
    resOk (splice 1 0 2 [4] sC9) = some 1 ∧
    (sC9out.selection.map fun sel => sel.anchor.key) = some 2 ∧
    (sC9out.selection.map fun sel => sel.focus.key) = some 2 ∧
    (findNode sC9out.nodeMap 2).map Node.parent = some none ∧
    (2 : NodeKey) ∈ spliceCollectRemove sC9 (walkFuel sC9) (getChildAtIndex sC9 1 0) 0 2 ∧
    childWalk sC9out 1 = [4] := by decide

/-- **C4 counterexample**: the claim says that when one node is an
ancestor of the other, the *ancestor* is before (so
`ancestor.isBefore(descendant)` is true and the converse false).  In the
concrete tree of `sC4`, element `1` is a proper ancestor of `2`
(`isParentOf` confirms it), yet `isBefore 1 2` is `false` and
`isBefore 2 1` is `true` — the code puts the *descendant* first. -/
theorem isBefore_ancestor_counterexample :
    isParentOf sC4 1 2 = some true ∧
    isBefore sC4 1 2 = some false ∧
    isBefore sC4 2 1 = some true := by decide

/-- **C5 counterexample**: the claim says `append(P, P)` leaves `P`'s
dirty status unchanged.  On `sC5`, where `P = 1` is clean, the failing
`append(P, P)` marks `P` dirty (it is cloned via `getWritable` before
the self-append check fires). -/
theorem append_self_dirty_counterexample :
    resErr (append 1 [1] sC5) = some .appendSelf ∧
    (1 : NodeKey) ∉ sC5.dirtyElements ∧
    (1 : NodeKey) ∈ sC5out.dirtyElements := by decide

/-- **C7**: every mutating node-graph operation (`append`, `splice`,
`clear`, `remove`, `replace`, `insertBefore`, `insertAfter`, `select`,
`setFormat`, `setIndent`, `setDirection`, and `markDirty` via
`getWritable`) fails with `ReadOnlyViolation` when no transaction is
open, performing no state change (each calls `errorOnReadOnly` before
touching anything). -/
theorem mutations_require_open_transaction (s : EState)
    (k nk rk : NodeKey) (nodes : List NodeKey) (start deleteCount : Int)
    (aOff fOff : Option Int) (d : Option Dir) (t : ElementFormatType) (i : Int)
    (preserve : Bool) (h : s.txnOpen = false) :
    append k nodes s = .err .readOnly s ∧
    splice k start deleteCount nodes s = .err .readOnly s ∧
    clear k s = .err .readOnly s ∧
    remove k preserve s = .err .readOnly s ∧
    replace k rk s = .err .readOnly s ∧
    insertBefore k nk s = .err .readOnly s ∧
    insertAfter k nk s = .err .readOnly s ∧
    select k aOff fOff s = .err .readOnly s ∧
    setFormat k t s = .err .readOnly s ∧
    setIndent k i s = .err .readOnly s ∧
    setDirection k d s = .err .readOnly s ∧
    markDirty k s = .err .readOnly s := by
  refine ⟨?_, ?_, ?_, ?_, ?_, ?_, ?_, ?_, ?_, ?_, ?_, ?_⟩ <;>
    simp [append, splice, clear, remove, replace, insertBefore, insertAfter, select,
      setFormat, setIndent, setDirection, markDirty, getWritable, errorOnReadOnly, h]

/-- Closed witness for C7: `append` at a concrete idle state. -/
theorem mutations_require_open_transaction_witness :
    append 1 [6] { sC1 with txnOpen := false } =
      .err .readOnly { sC1 with txnOpen := false } :=
  (mutations_require_open_transaction { sC1 with txnOpen := false }
    1 2 9 [6] 1 2 none none none .left 0 false rfl).1

/-- **C10**: inside an open transaction, removing a node whose parent is
`null` — both through `removeNode` (any fuel, any flags) and through the
`remove` method — returns without an error and with the state (node
mapping, selection, everything) exactly unchanged. -/
theorem remove_detached_noop (s : EState) (k : NodeKey) (n : Node) (fuel : Nat)
    (rs pres : Bool) (hopen : s.txnOpen = true)
    (hmem : findNode s.nodeMap k = some n) (hpar : n.parent = none) :
    removeNode (fuel + 1) k rs pres s = .ok () s ∧
    remove k pres s = .ok () s := by
  constructor <;>
    simp [remove, removeNode, walkFuel, errorOnReadOnly, getLatestM, hopen, hmem, hpar]

/-- Closed witness for C10: removing the detached node `X = 6` of `sC1`
is a no-op. -/
theorem remove_detached_noop_witness :
    remove 6 false sC1 = .ok () sC1 :=
  (remove_detached_noop sC1 6 (mkTextNode 6 none none none) 0 true false rfl rfl rfl).2

theorem addKey_addKey (l : List NodeKey) (k : NodeKey) :
    addKey (addKey l k) k = addKey l k :=
  addKey_of_mem (by simp)

@[simp] theorem node_eta_key (n : Node) : { n with key := n.key } = n := rfl

theorem markDirtyState_idem (n : Node) (s : EState) :
    markDirtyState n (markDirtyState n s) = markDirtyState n s := by
  unfold markDirtyState
  cases h : n.isElem <;> simp [h, addKey_addKey]

@[simp] theorem markDirtyState_nodeMap_update (n : Node) (t : EState)
    (x : List (NodeKey × Node)) :
    markDirtyState n { t with nodeMap := x } = { markDirtyState n t with nodeMap := x } := rfl

/-- **C6**: copy-on-write clones each node at most once per transaction:
with a transaction open, `getWritable` on key `k` yields the node value
`n` (the clone preserves every field, so the value is unchanged); the key
is recorded in `_cloneNotNeeded`; if this was the first `getWritable`
for `k` in the transaction, exactly one clone was allocated
(`cloneCount` rose by one); and a second `getWritable` on the same key
returns the *identical* node with the state exactly unchanged — no
second clone is created, so two mutations of the same node observe the
same reference. -/
theorem getWritable_clones_once (s : EState) (k : NodeKey) (n : Node)
    (hopen : s.txnOpen = true) (hmem : findNode s.nodeMap k = some n)
    (hkey : n.key = k) :
    getWritable k s = .ok n (resState (getWritable k s)) ∧
    k ∈ (resState (getWritable k s)).cloneNotNeeded ∧
    findNode (resState (getWritable k s)).nodeMap k = some n ∧
    (k ∉ s.cloneNotNeeded → (resState (getWritable k s)).cloneCount = s.cloneCount + 1) ∧
    getWritable k (resState (getWritable k s)) = .ok n (resState (getWritable k s)) := by
  subst hkey
  by_cases hc : n.key ∈ s.cloneNotNeeded
  · have h1 : getWritable n.key s = .ok n (markDirtyState n s) := by
      simp [getWritable, errorOnReadOnly, getLatestM, internalMarkNodeAsDirty, hopen, hmem, hc]
    refine ⟨?_, ?_, ?_, ?_, ?_⟩
    · simp [h1, resState]
    · simp [h1, resState, hc]
    · simp [h1, resState, hmem]
    · intro hcontra; exact absurd hc hcontra
    · simp [h1, resState, getWritable, errorOnReadOnly, getLatestM,
        internalMarkNodeAsDirty, hopen, hmem, hc, markDirtyState_idem]
  · have h1 : getWritable n.key s = .ok n
        { markDirtyState n
            { s with cloneCount := s.cloneCount + 1,
                     cloneNotNeeded := addKey s.cloneNotNeeded n.key } with
          nodeMap := setEntry s.nodeMap n.key n } := by
      simp [getWritable, errorOnReadOnly, getLatestM, internalMarkNodeAsDirty, hopen, hmem, hc]
    refine ⟨?_, ?_, ?_, ?_, ?_⟩
    · simp [h1, resState]
    · simp [h1, resState]
    · simp [h1, resState]
    · intro _; simp [h1, resState]
    · simp only [h1, resState]
      simp [getWritable, errorOnReadOnly, getLatestM, internalMarkNodeAsDirty, hopen,
        markDirtyState_idem]
      exact markDirtyState_of_mem _ _ (fun hel => by simp [markDirtyState, hel])
        (fun hel => by simp [markDirtyState, hel])

/-- Closed witness for C6: first and second `getWritable` on the element
`P = 1` of `sC1`. -/
theorem getWritable_clones_once_witness :
    getWritable 1 sC1 = .ok (mkElemNode 1 true (some 0) none none (some 2) (some 5) 4)
      (resState (getWritable 1 sC1)) ∧
    (resState (getWritable 1 sC1)).cloneCount = sC1.cloneCount + 1 := by
  have h := getWritable_clones_once sC1 1
    (mkElemNode 1 true (some 0) none none (some 2) (some 5) 4) rfl rfl rfl
  exact ⟨h.1, h.2.2.2.1 (by decide)⟩

/-- **C5 (amended)**: for every element `P` in an open transaction,
`append(P, P)` fails with the self-append invariant (the claim's
`InvalidOperation`) and leaves `P`'s node value — and with it
`firstChild`, `lastChild`, `childCount`, `parent`, `prev` and `next` —
unchanged; but `P` does *not* keep its dirty status: the failed call
records `P` in `_cloneNotNeeded` and marks it dirty, because
`getWritable` runs before the self-append check. -/
theorem append_self_fails_structurally_unchanged (s : EState) (k : NodeKey) (n : Node)
    (hopen : s.txnOpen = true) (hmem : findNode s.nodeMap k = some n)
    (hkey : n.key = k) (helem : n.isElem = true) :
    resErr (append k [k] s) = some .appendSelf ∧
    findNode (resState (append k [k] s)).nodeMap k = some n ∧
    k ∈ (resState (append k [k] s)).dirtyElements ∧
    k ∈ (resState (append k [k] s)).cloneNotNeeded := by
  subst hkey
  by_cases hc : n.key ∈ s.cloneNotNeeded <;>
    refine ⟨?_, ?_, ?_, ?_⟩ <;>
    simp [append, appendLoop, getWritable, errorOnReadOnly, getLatestM,
      internalMarkNodeAsDirty, hopen, hmem, hc, helem, resErr, resState,
      markDirtyState, addKey_addKey] <;>
    (cases n; simp_all)

/-- Closed witness for C5: `append(P, P)` on the clean element `P = 1`
of `sC5`. -/
theorem append_self_fails_witness :
    resErr (append 1 [1] sC5) = some .appendSelf ∧
    findNode (resState (append 1 [1] sC5)).nodeMap 1 =
      some (mkElemNode 1 true (some 0) none none none none 0) :=
  ⟨(append_self_fails_structurally_unchanged sC5 1
      (mkElemNode 1 true (some 0) none none none none 0) rfl rfl rfl rfl).1,
   (append_self_fails_structurally_unchanged sC5 1
      (mkElemNode 1 true (some 0) none none none none 0) rfl rfl rfl rfl).2.1⟩

set_option maxHeartbeats 2000000 in
/-- **C8**: recursive empty-parent cleanup.  For any state of the modelled
shape — attached node `n = k` the sole child of a non-root element
`p = pk` whose variant requires non-emptiness (`canBeEmpty()` false),
itself a child of the root `r = rk` — `remove(n)` succeeds, detaches `n`,
removes the thereby-emptied parent `p` as well (recursively up the
chain), never removes Root (`rk` stays in the mapping with no parent),
and, Root having become empty, moves the selection to Root's end
(`(root, 0, element)` for an empty root). -/
theorem remove_recursive_empty_parent_cleanup (s : EState) (k pk rk : NodeKey) (n p r : Node)
    (hopen : s.txnOpen = true) (hsel : s.selection = none) (hcnn : s.cloneNotNeeded = [])
    (hk : findNode s.nodeMap k = some n) (hkkey : n.key = k)
    (hknp : n.parent = some pk) (hknprev : n.prev = none) (hknnext : n.next = none)
    (hp : findNode s.nodeMap pk = some p) (hpkey : p.key = pk)
    (hpfirst : p.first = some k) (hplast : p.last = some k) (hpsize : p.size = 1)
    (hpparent : p.parent = some rk) (hpcan : p.canBeEmpty = false)
    (hproot : p.isRoot = false) (hpprev : p.prev = none) (hpnext : p.next = none)
    (hr : findNode s.nodeMap rk = some r) (hrkey : r.key = rk) (hrroot : r.isRoot = true)
    (hrfirst : r.first = some pk) (hrlast : r.last = some pk) (hrsize : r.size = 1)
    (hrparent : r.parent = none)
    (hkp : k ≠ pk) (hkr : k ≠ rk) (hpr : pk ≠ rk) :
    resOk (remove k false s) = some () ∧
    (findNode (resState (remove k false s)).nodeMap k).map Node.parent = some none ∧
    (findNode (resState (remove k false s)).nodeMap pk).map Node.parent = some none ∧
    (findNode (resState (remove k false s)).nodeMap rk).map Node.parent = some none ∧
    (resState (remove k false s)).selection =
      some { anchor := { key := rk, offset := 0, ptype := .element },
             focus := { key := rk, offset := 0, ptype := .element } } := by
  have hpk' : pk ≠ k := Ne.symm hkp
  have hrk' : rk ≠ k := Ne.symm hkr
  have hrp' : rk ≠ pk := Ne.symm hpr
  obtain ⟨m, hm⟩ : ∃ m, s.nodeMap.length = m + 1 := by
    cases hmap : s.nodeMap with
    | nil => rw [hmap] at hk; simp [findNode] at hk
    | cons a t => exact ⟨t.length, by simp [hmap]⟩
  refine ⟨?_, ?_, ?_, ?_, ?_⟩ <;>
    simp [remove, removeNode, walkFuel, hm, errorOnReadOnly, getLatestM, getWritable,
      internalMarkNodeAsDirty, removeFromParent, modifyNodeRaw, getIndexWithinParent,
      getIndexWithinParentLoop, getParent, getFirstChild, getNextSibling,
      getPreviousSibling, getChildrenSize, selectEnd, select, getLastDescendant,
      getLastChild, internalMakeRangeSelection, updateElementSelectionOnCreateDeleteNode,
      moveSelectionPointToSibling, setPoint, resOk, resState,
      hopen, hsel, hcnn, hk, hkkey, hknp, hknprev, hknnext, hp, hpkey, hpfirst, hplast,
      hpsize, hpparent, hpcan, hproot, hpprev, hpnext, hr, hrkey, hrroot, hrfirst,
      hrlast, hrsize, hrparent, hkp, hkr, hpr, hpk', hrk', hrp']

/-- Closed witness for C8: removing the sole child `2` of the
non-emptiable element `1` under root `0` in `sC8`. -/
theorem remove_recursive_empty_parent_cleanup_witness :
    resOk (remove 2 false sC8) = some () ∧
    (findNode (resState (remove 2 false sC8)).nodeMap 1).map Node.parent = some none ∧
    (resState (remove 2 false sC8)).selection =
      some { anchor := { key := 0, offset := 0, ptype := .element },
             focus := { key := 0, offset := 0, ptype := .element } } := by
  have h := remove_recursive_empty_parent_cleanup sC8 2 1 0
    (mkTextNode 2 (some 1) none none)
    (mkElemNode 1 false (some 0) none none (some 2) (some 2) 1)
    (mkRootNode 0 (some 1) (some 1) 1)
    rfl rfl rfl rfl rfl rfl rfl rfl rfl rfl rfl rfl rfl rfl rfl rfl rfl rfl rfl rfl rfl rfl
    rfl rfl rfl (by decide) (by decide) (by decide)
  exact ⟨h.1, h.2.2.1, h.2.2.2.2⟩

/-! ### chain lemmas -/
theorem findNode_mem : ∀ (l : List (NodeKey × Node)) (k : NodeKey) (n : Node),
    findNode l k = some n → (k, n) ∈ l := by
  intro l
  induction l with
  | nil => intro k n h; simp [findNode] at h
  | cons hd tl ih =>
    intro k n h
    by_cases hk : hd.1 = k
    · subst hk
      simp [findNode] at h
      simp [← h]
    · simp [findNode, hk] at h
      exact List.mem_cons_of_mem _ (ih _ _ h)

theorem parentKeyInMap_isSome {s : EState} {k pk : NodeKey}
    (h : parentKeyInMap s k = some pk) : (findNode s.nodeMap pk).isSome := by
  unfold parentKeyInMap at h
  cases hf : findNode s.nodeMap k with
  | none => rw [hf] at h; simp at h
  | some nd =>
    rw [hf] at h
    cases hp : nd.parent with
    | none => simp [hp] at h
    | some pk1 =>
      simp [hp] at h
      by_cases hs : (findNode s.nodeMap pk1).isSome
      · simp [hs] at h; subst h; exact hs
      · simp [hs] at h

/-- `parentKeyInMap` through a resolved node. -/
theorem parentKeyInMap_eq {s : EState} {k : NodeKey} {nd : Node}
    (h : findNode s.nodeMap k = some nd) :
    parentKeyInMap s k = nd.parent.bind fun pk =>
      if (findNode s.nodeMap pk).isSome then some pk else none := by
  unfold parentKeyInMap
  rw [h, Option.some_bind]

theorem chainTerminates_mono (s : EState) :
    ∀ f g y, f ≤ g → chainTerminates s f y = true → chainTerminates s g y = true := by
  intro f
  induction f with
  | zero => intro g y _ h; simp [chainTerminates] at h
  | succ f ih =>
    intro g y hle h
    obtain ⟨g0, rfl⟩ : ∃ g0, g = g0 + 1 := ⟨g - 1, by omega⟩
    cases hp : parentKeyInMap s y with
    | none => simp [chainTerminates, hp]
    | some pk =>
      simp [chainTerminates, hp] at h ⊢
      exact ih g0 pk (by omega) h

theorem ancestorChain_stable (s : EState) :
    ∀ f g y, f ≤ g → chainTerminates s f y = true →
      ancestorChain s g y = ancestorChain s f y := by
  intro f
  induction f with
  | zero => intro g y _ h; simp [chainTerminates] at h
  | succ f ih =>
    intro g y hle h
    obtain ⟨g0, rfl⟩ : ∃ g0, g = g0 + 1 := ⟨g - 1, by omega⟩
    cases hp : parentKeyInMap s y with
    | none => simp [ancestorChain, hp]
    | some pk =>
      simp [chainTerminates, hp] at h
      simp [ancestorChain, hp]
      exact ih g0 pk (by omega) h

theorem chainDepth_stable (s : EState) :
    ∀ f g y, f ≤ g → chainTerminates s f y = true →
      chainDepth s g y = chainDepth s f y := by
  intro f
  induction f with
  | zero => intro g y _ h; simp [chainTerminates] at h
  | succ f ih =>
    intro g y hle h
    obtain ⟨g0, rfl⟩ : ∃ g0, g = g0 + 1 := ⟨g - 1, by omega⟩
    cases hp : parentKeyInMap s y with
    | none => simp [chainDepth, hp]
    | some pk =>
      simp [chainTerminates, hp] at h
      simp [chainDepth, hp]
      exact ih g0 pk (by omega) h

theorem chainTerminates_of_mem (s : EState) :
    ∀ f y x, chainTerminates s f y = true → x ∈ ancestorChain s f y →
      chainTerminates s f x = true := by
  intro f
  induction f with
  | zero => intro y x h; simp [chainTerminates] at h
  | succ f ih =>
    intro y x h hx
    cases hp : parentKeyInMap s y with
    | none => simp [ancestorChain, hp] at hx
    | some pk =>
      simp [chainTerminates, hp] at h
      simp [ancestorChain, hp] at hx
      rcases hx with rfl | hx
      · exact chainTerminates_mono s f (f + 1) x (by omega) h
      · exact chainTerminates_mono s f (f + 1) x (by omega) (ih pk x h hx)

theorem chainDepth_lt_of_mem (s : EState) :
    ∀ f y x, chainTerminates s f y = true → x ∈ ancestorChain s f y →
      chainDepth s f x < chainDepth s f y := by
  intro f
  induction f with
  | zero => intro y x h; simp [chainTerminates] at h
  | succ f ih =>
    intro y x h hx
    cases hp : parentKeyInMap s y with
    | none => simp [ancestorChain, hp] at hx
    | some pk =>
      simp [chainTerminates, hp] at h
      simp [ancestorChain, hp] at hx
      have hstepy : chainDepth s (f + 1) y = chainDepth s f pk + 1 := by
        simp [chainDepth, hp]
      rcases hx with rfl | hx
      · rw [hstepy, chainDepth_stable s f (f + 1) x (by omega) h]
        omega
      · have hxterm : chainTerminates s f x = true :=
          chainTerminates_of_mem s f pk x h hx
        rw [hstepy, chainDepth_stable s f (f + 1) x (by omega) hxterm]
        have := ih pk x h hx
        omega

theorem isParentOfLoop_spec (s : EState) (x : NodeKey) :
    ∀ f g y, chainTerminates s f y = true → f < g →
      (x ≠ y → (findNode s.nodeMap y).isSome) →
      isParentOfLoop s g (some y) x =
        some (decide (x = y ∨ x ∈ ancestorChain s f y)) := by
  intro f
  induction f with
  | zero => intro g y h; simp [chainTerminates] at h
  | succ f ih =>
    intro g y h hg hy
    obtain ⟨g0, rfl⟩ : ∃ g0, g = g0 + 1 := ⟨g - 1, by omega⟩
    by_cases hxy : x = y
    · subst hxy
      simp [isParentOfLoop]
    · obtain ⟨ny, hny⟩ := Option.isSome_iff_exists.mp (hy hxy)
      have hyx : ¬ y = x := fun hh => hxy hh.symm
      have hpeq := parentKeyInMap_eq hny
      cases hp : parentKeyInMap s y with
      | none =>
        rw [hp] at hpeq
        obtain ⟨g1, rfl⟩ : ∃ g1, g0 = g1 + 1 := ⟨g0 - 1, by omega⟩
        simp [isParentOfLoop, hyx, hny, ← hpeq, ancestorChain, hp, hxy]
      | some pk =>
        rw [hp] at hpeq
        simp only [chainTerminates, hp] at h
        have hrec := ih g0 pk h (by omega)
          (fun _ => parentKeyInMap_isSome hp)
        simp [isParentOfLoop, hyx, hny, ← hpeq, hrec, ancestorChain, hp, hxy]

theorem getParent_none_iff (s : EState) (y : NodeKey) :
    getParent s y = none ↔ parentKeyInMap s y = none := by
  unfold getParent parentKeyInMap
  cases hf : findNode s.nodeMap y with
  | none => simp
  | some nd =>
    simp only [Option.some_bind]
    cases hp : nd.parent with
    | none => simp
    | some pk =>
      simp only [Option.some_bind]
      cases hq : findNode s.nodeMap pk with
      | none => simp [hq]
      | some p => simp [hq]

theorem getParent_some (s : EState) (hkeys : WFKeys s) {y : NodeKey} {p : Node}
    (h : getParent s y = some p) :
    parentKeyInMap s y = some p.key ∧ findNode s.nodeMap p.key = some p := by
  unfold getParent at h
  cases hf : findNode s.nodeMap y with
  | none => rw [hf] at h; simp at h
  | some nd =>
    rw [hf] at h
    simp only [Option.some_bind] at h
    cases hp : nd.parent with
    | none => rw [hp] at h; simp at h
    | some pk =>
      rw [hp] at h
      simp only [Option.some_bind] at h
      have hkey : p.key = pk := hkeys (pk, p) (findNode_mem _ _ _ h)
      constructor
      · rw [parentKeyInMap_eq hf, hp, Option.some_bind, hkey]
        simp [h]
      · rw [hkey]; exact h

theorem getParentsLoop_spec (s : EState) (hkeys : WFKeys s) :
    ∀ f g y, chainTerminates s f y = true → f ≤ g →
      getParentsLoop s g (getParent s y) = ancestorChain s f y := by
  intro f
  induction f with
  | zero => intro g y h; simp [chainTerminates] at h
  | succ f ih =>
    intro g y h hg
    obtain ⟨g0, rfl⟩ : ∃ g0, g = g0 + 1 := ⟨g - 1, by omega⟩
    cases hp : parentKeyInMap s y with
    | none =>
      have hgp : getParent s y = none := (getParent_none_iff s y).mpr hp
      simp [hgp, getParentsLoop, ancestorChain, hp]
    | some pk =>
      simp only [chainTerminates, hp] at h
      cases hgp : getParent s y with
      | none => rw [(getParent_none_iff s y).mp hgp] at hp; cases hp
      | some p =>
        obtain ⟨hpk, hmem⟩ := getParent_some s hkeys hgp
        rw [hp] at hpk
        have hkeq : p.key = pk := by injection hpk.symm
        simp [getParentsLoop, ancestorChain, hp, hkeq, ih g0 pk h (by omega)]

theorem find_common_lowest (s : EState) (B : List NodeKey) :
    ∀ f a c, chainTerminates s f a = true →
      (ancestorChain s f a).find? (fun x => decide (x ∈ B)) = some c →
      ∀ d ∈ ancestorChain s f a, d ∈ B → d = c ∨ d ∈ ancestorChain s f c := by
  intro f
  induction f with
  | zero => intro a c h; simp [chainTerminates] at h
  | succ f ih =>
    intro a c h hfind d hd hdB
    cases hp : parentKeyInMap s a with
    | none => simp [ancestorChain, hp] at hd
    | some pk =>
      simp only [chainTerminates, hp] at h
      have hchain : ancestorChain s (f + 1) a = pk :: ancestorChain s f pk := by
        simp [ancestorChain, hp]
      rw [hchain] at hd hfind
      rw [List.mem_cons] at hd
      by_cases hpkB : pk ∈ B
      · rw [List.find?_cons_of_pos _ (by simpa using hpkB)] at hfind
        injection hfind with hfind
        subst hfind
        rcases hd with rfl | hd
        · left; rfl
        · right
          rw [ancestorChain_stable s f (f + 1) pk (by omega) h]
          exact hd
      · rw [List.find?_cons_of_neg _ (by simpa using hpkB)] at hfind
        rcases hd with rfl | hd
        · exact absurd hdB hpkB
        · rcases ih pk c h hfind d hd hdB with rfl | hh
          · left; rfl
          · right
            have hcterm : chainTerminates s f c = true :=
              chainTerminates_of_mem s f pk c h
                (List.mem_of_find?_eq_some hfind)
            rw [ancestorChain_stable s f (f + 1) c (by omega) hcterm]
            exact hh

/-- The `isBefore` climb computes the index-within-parent of the chain
member sitting directly below the common ancestor. -/
theorem isBeforeClimb_spec (s : EState) (hkeys : WFKeys s) (c : NodeKey) :
    ∀ f g y, chainTerminates s f y = true → f < g →
      c ∈ ancestorChain s f y →
      ∃ xa, (y :: ancestorChain s f y).find?
              (fun x => decide (parentKeyInMap s x = some c)) = some xa ∧
            isBeforeClimb s g y (some c) = some (getIndexWithinParent s xa) := by
  intro f
  induction f with
  | zero => intro g y h; simp [chainTerminates] at h
  | succ f ih =>
    intro g y h hg hc
    obtain ⟨g0, rfl⟩ : ∃ g0, g = g0 + 1 := ⟨g - 1, by omega⟩
    cases hp : parentKeyInMap s y with
    | none => simp [ancestorChain, hp] at hc
    | some pk =>
      simp only [chainTerminates, hp] at h
      have hchain : ancestorChain s (f + 1) y = pk :: ancestorChain s f pk := by
        simp [ancestorChain, hp]
      rw [hchain] at hc ⊢
      have hpkmem : (findNode s.nodeMap pk).isSome := parentKeyInMap_isSome hp
      obtain ⟨p, hpnode⟩ := Option.isSome_iff_exists.mp hpkmem
      -- getParent s y = some p with p.key = pk
      have hgp : getParent s y = some p ∧ p.key = pk := by
        have h1 : parentKeyInMap s y = some pk := hp
        unfold parentKeyInMap at h1
        cases hf1 : findNode s.nodeMap y with
        | none => rw [hf1] at h1; simp at h1
        | some nd =>
          rw [hf1] at h1
          simp only [Option.some_bind] at h1
          cases hp1 : nd.parent with
          | none => rw [hp1] at h1; simp at h1
          | some pk1 =>
            rw [hp1] at h1
            simp only [Option.some_bind] at h1
            have hpk1 : pk1 = pk := by
              by_cases hs : (findNode s.nodeMap pk1).isSome
              · simp [hs] at h1; exact h1
              · simp [hs] at h1
            subst hpk1
            refine ⟨?_, hkeys (pk1, p) (findNode_mem _ _ _ hpnode)⟩
            unfold getParent
            rw [hf1, Option.some_bind, hp1, Option.some_bind, hpnode]
      by_cases hpkc : pk = c
      · subst hpkc
        refine ⟨y, ?_, ?_⟩
        · exact List.find?_cons_of_pos _ (by simp [hp])
        · simp [isBeforeClimb, hgp.1, hgp.2]
      · rw [List.mem_cons] at hc
        rcases hc with rfl | hc
        · exact absurd rfl hpkc
        · obtain ⟨xa, hfind, hclimb⟩ := ih g0 pk h (by omega) hc
          refine ⟨xa, ?_, ?_⟩
          · rw [List.find?_cons_of_neg _ (by simp [hp, hpkc])]
            exact hfind
          · have : isBeforeClimb s (g0 + 1) y (some c) =
                isBeforeClimb s g0 pk (some c) := by
              simp [isBeforeClimb, hgp.1, hgp.2, hpkc]
            rw [this, hclimb]

/-- `getLast?` skips a cons onto a nonempty list. -/
theorem getLast?_cons_of_ne_nil {a : Type} (x : a) {l : List a} (h : l ≠ []) :
    (x :: l).getLast? = l.getLast? := by
  cases l with
  | nil => exact absurd rfl h
  | cons b t => simp [List.getLast?_cons_cons]

/-- A parentless member of a chain is its last entry. -/
theorem chain_getLast_of_parentless (s : EState) :
    ∀ f y rt, chainTerminates s f y = true → rt ∈ ancestorChain s f y →
      parentKeyInMap s rt = none → (ancestorChain s f y).getLast? = some rt := by
  intro f
  induction f with
  | zero => intro y rt h; simp [chainTerminates] at h
  | succ f ih =>
    intro y rt h hrt hrtp
    cases hp : parentKeyInMap s y with
    | none => simp [ancestorChain, hp] at hrt
    | some pk =>
      simp only [chainTerminates, hp] at h
      have hchain : ancestorChain s (f + 1) y = pk :: ancestorChain s f pk := by
        simp [ancestorChain, hp]
      rw [hchain] at hrt ⊢
      rw [List.mem_cons] at hrt
      rcases hrt with rfl | hrt
      · have hempty : ancestorChain s f rt = [] := by
          cases f with
          | zero => simp [ancestorChain]
          | succ f0 => simp [ancestorChain, hrtp]
        rw [hempty]
        rfl
      · have htail := ih pk rt h hrt hrtp
        have hne : ancestorChain s f pk ≠ [] := by
          intro hnil
          rw [hnil] at hrt
          cases hrt
        rw [getLast?_cons_of_ne_nil pk hne]
        exact htail

theorem find?_congr_mem {α : Type} (p q : α → Bool) :
    ∀ l : List α, (∀ x ∈ l, p x = q x) → l.find? p = l.find? q := by
  intro l
  induction l with
  | nil => intro _; rfl
  | cons a l ih =>
    intro h
    have ha := h a (by simp)
    cases hpa : p a with
    | true =>
      rw [List.find?_cons_of_pos _ hpa, List.find?_cons_of_pos _ (by rw [← ha]; exact hpa)]
    | false =>
      rw [List.find?_cons_of_neg _ (by simp [hpa]), List.find?_cons_of_neg _ (by simp [← ha, hpa]),
        ih fun x hx => h x (by simp [hx])]

set_option maxHeartbeats 1000000 in
/-- **C4 (amended)**: document order as implemented.  For two distinct
nodes `a ≠ b`, both attached (Root `rt` is an ancestor-or-self of each)
in a well-formed state: if `b` is a proper ancestor of `a` then
`a.isBefore(b)` is true and `b.isBefore(a)` is false — the *descendant*
comes first, inverting the claim's ancestor clause; and if neither is an
ancestor of the other, `a.isBefore(b)` equals the comparison of the
index-within-parent of `a`'s and `b`'s ancestor chains at their lowest
common ancestor. -/
theorem isBefore_amended (s : EState) (a b rt : NodeKey) (na nb r : Node)
    (hkeys : WFKeys s) (hacyc : WFAcyclic s)
    (ha : findNode s.nodeMap a = some na) (hb : findNode s.nodeMap b = some nb)
    (hne : a ≠ b)
    (hr : findNode s.nodeMap rt = some r) (hrroot : r.isRoot = true)
    (hrpar : r.parent = none)
    (hrta : IsProperAncestor s rt a ∨ rt = a)
    (hrtb : IsProperAncestor s rt b ∨ rt = b) :
    (IsProperAncestor s b a →
        isBefore s a b = some true ∧ isBefore s b a = some false) ∧
    (¬IsProperAncestor s b a → ¬IsProperAncestor s a b →
        ∃ c xa xb, IsLCA s a b c ∧ branchChild s a c = some xa ∧
          branchChild s b c = some xb ∧
          isBefore s a b =
            some (decide (getIndexWithinParent s xa < getIndexWithinParent s xb))) := by
  have hta : chainTerminates s s.nodeMap.length a = true :=
    hacyc (a, na) (findNode_mem _ _ _ ha)
  have htb : chainTerminates s s.nodeMap.length b = true :=
    hacyc (b, nb) (findNode_mem _ _ _ hb)
  have hlt : s.nodeMap.length < walkFuel s := by simp [walkFuel]
  have hle : s.nodeMap.length ≤ walkFuel s := by simp [walkFuel]
  have hstA : ancestorChain s (walkFuel s) a = ancestorChain s s.nodeMap.length a :=
    ancestorChain_stable s _ _ a hle hta
  have hstB : ancestorChain s (walkFuel s) b = ancestorChain s s.nodeMap.length b :=
    ancestorChain_stable s _ _ b hle htb
  have hloopA := isParentOfLoop_spec s b s.nodeMap.length (walkFuel s) a hta hlt
    (fun _ => by simp [ha])
  have hloopB := isParentOfLoop_spec s a s.nodeMap.length (walkFuel s) b htb hlt
    (fun _ => by simp [hb])
  constructor
  · intro hanc
    have hancA : b ∈ ancestorChain s s.nodeMap.length a := by
      have h1 := hanc
      unfold IsProperAncestor at h1
      rw [hstA] at h1
      exact h1
    have hnrev : a ∉ ancestorChain s s.nodeMap.length b := by
      intro hmem
      have h1 := chainDepth_lt_of_mem s _ a b hta hancA
      have h2 := chainDepth_lt_of_mem s _ b a htb hmem
      omega
    have hipab : isParentOf s b a = some true := by
      unfold isParentOf
      rw [if_neg (Ne.symm hne), hloopA]
      simp [hancA]
    have hipba : isParentOf s a b = some false := by
      unfold isParentOf
      rw [if_neg hne, hloopB]
      simp [hne, hnrev]
    constructor
    · simp [isBefore, hipab]
    · simp [isBefore, hipab, hipba]
  · intro hnab hnba
    have hnabL : b ∉ ancestorChain s s.nodeMap.length a := by
      intro hm
      exact hnab (by unfold IsProperAncestor; rw [hstA]; exact hm)
    have hnbaL : a ∉ ancestorChain s s.nodeMap.length b := by
      intro hm
      exact hnba (by unfold IsProperAncestor; rw [hstB]; exact hm)
    have hrta' : rt ∈ ancestorChain s s.nodeMap.length a := by
      rcases hrta with h1 | rfl
      · unfold IsProperAncestor at h1
        rw [hstA] at h1
        exact h1
      · rcases hrtb with h2 | h2
        · exact absurd h2 hnba
        · exact absurd h2 hne
    have hrtb' : rt ∈ ancestorChain s s.nodeMap.length b := by
      rcases hrtb with h2 | rfl
      · unfold IsProperAncestor at h2
        rw [hstB] at h2
        exact h2
      · rcases hrta with h1 | h1
        · exact absurd h1 hnab
        · exact absurd h1.symm hne
    set cA := ancestorChain s s.nodeMap.length a with hcAdef
    set cB := ancestorChain s s.nodeMap.length b with hcBdef
    have hrtpl : parentKeyInMap s rt = none := by
      rw [parentKeyInMap_eq hr, hrpar]
      rfl
    have hlastA : cA.getLast? = some rt :=
      chain_getLast_of_parentless s _ a rt hta hrta' hrtpl
    have hlastB : cB.getLast? = some rt :=
      chain_getLast_of_parentless s _ b rt htb hrtb' hrtpl
    have hneA : cA ≠ [] := by
      intro h0
      rw [h0] at hrta'
      cases hrta'
    have hneB : cB ≠ [] := by
      intro h0
      rw [h0] at hrtb'
      cases hrtb'
    have hgpA : getParents s a = cA := by
      unfold getParents
      exact getParentsLoop_spec s hkeys _ _ a hta hle
    have hgpB : getParents s b = cB := by
      unfold getParents
      exact getParentsLoop_spec s hkeys _ _ b htb hle
    obtain ⟨c, hcfind⟩ : ∃ c, cA.find? (fun x => decide (x ∈ cB)) = some c := by
      have hs : (cA.find? (fun x => decide (x ∈ cB))).isSome := by
        rw [List.find?_isSome]
        exact ⟨rt, hrta', by simp [hrtb']⟩
      exact Option.isSome_iff_exists.mp hs
    have hcA : c ∈ cA := List.mem_of_find?_eq_some hcfind
    have hcB : c ∈ cB := by
      have h1 := List.find?_some hcfind
      simpa using h1
    have hcongr1 : cA.find? (fun x => decide (x ∈ b :: cB)) =
        cA.find? (fun x => decide (x ∈ cB)) := by
      apply find?_congr_mem
      intro x hx
      have hxb : x ≠ b := fun hh => hnabL (hh ▸ hx)
      simp [List.mem_cons, hxb]
    have hanotB : a ∉ cB := hnbaL
    have hanotbcons : a ∉ b :: cB := by
      simp [List.mem_cons, hne, hanotB]
    have hlastAcons : (a :: cA).getLast? = some rt := by
      rw [getLast?_cons_of_ne_nil a hneA]
      exact hlastA
    have hlastBcons : (b :: cB).getLast? = some rt := by
      rw [getLast?_cons_of_ne_nil b hneB]
      exact hlastB
    have hgca : getCommonAncestor s a b = some c := by
      simp only [getCommonAncestor, hgpA, hgpB, ha, hb, Option.map_some', Option.getD_some]
      by_cases hea : na.isElem <;> by_cases heb : nb.isElem <;>
        simp only [hea, heb, if_true, Bool.false_eq_true, if_false]
      · rw [if_neg (by simp [hlastAcons, hlastBcons])]
        rw [List.find?_cons_of_neg _ (by simp [hanotbcons]), hcongr1, hcfind]
      · rw [if_neg (by simp [hlastAcons, hlastB, List.length_eq_zero, hneB])]
        rw [List.find?_cons_of_neg _ (by simp [hanotB]), hcfind]
      · rw [if_neg (by simp [hlastA, hlastBcons, List.length_eq_zero, hneA])]
        rw [hcongr1, hcfind]
      · rw [if_neg (by simp [hlastA, hlastB, List.length_eq_zero, hneA, hneB])]
        rw [hcfind]
    obtain ⟨xa, hfxa, hclimba⟩ := isBeforeClimb_spec s hkeys c _ (walkFuel s) a hta hlt hcA
    obtain ⟨xb, hfxb, hclimbb⟩ := isBeforeClimb_spec s hkeys c _ (walkFuel s) b htb hlt hcB
    have hbca : branchChild s a c = some xa := by
      unfold branchChild
      rw [hstA]
      exact hfxa
    have hbcb : branchChild s b c = some xb := by
      unfold branchChild
      rw [hstB]
      exact hfxb
    have hipab : isParentOf s b a = some false := by
      unfold isParentOf
      rw [if_neg (Ne.symm hne), hloopA]
      simp [Ne.symm hne, hnabL]
    have hipba : isParentOf s a b = some false := by
      unfold isParentOf
      rw [if_neg hne, hloopB]
      simp [hne, hnbaL]
    refine ⟨c, xa, xb, ⟨⟨?_, ?_⟩, ?_⟩, hbca, hbcb, ?_⟩
    · unfold IsProperAncestor
      rw [hstA]
      exact hcA
    · unfold IsProperAncestor
      rw [hstB]
      exact hcB
    · intro d hd
      obtain ⟨hda, hdb⟩ := hd
      have hda' : d ∈ cA := by
        unfold IsProperAncestor at hda
        rw [hstA] at hda
        exact hda
      have hdb' : d ∈ cB := by
        unfold IsProperAncestor at hdb
        rw [hstB] at hdb
        exact hdb
      rcases find_common_lowest s cB _ a c hta hcfind d hda' hdb' with rfl | hh
      · left; rfl
      · right
        unfold IsProperAncestor
        have hct : chainTerminates s s.nodeMap.length c = true :=
          chainTerminates_of_mem s _ a c hta hcA
        rw [ancestorChain_stable s _ _ c hle hct]
        exact hh
    · simp only [isBefore, hipab, hipba, hgca, hclimba, hclimbb]

/-- Closed witness for C4: in `sC4`, `1` is a proper ancestor of `2`, and
the descendant comes first; for the non-ancestor pair `(2, 3)` the order
is decided by index-within-parent at the lowest common ancestor. -/
theorem isBefore_amended_witness :
    (isBefore sC4 2 1 = some true ∧ isBefore sC4 1 2 = some false) ∧
    (∃ c xa xb, IsLCA sC4 2 3 c ∧ branchChild sC4 2 c = some xa ∧
       branchChild sC4 3 c = some xb ∧
       isBefore sC4 2 3 =
         some (decide (getIndexWithinParent sC4 xa < getIndexWithinParent sC4 xb))) :=
  ⟨(isBefore_amended sC4 2 1 0 (mkTextNode 2 (some 1) none none)
      (mkElemNode 1 true (some 0) none (some 3) (some 2) (some 2) 1)
      (mkRootNode 0 (some 1) (some 3) 2)
      (by decide) (by decide) rfl rfl (by decide) rfl rfl rfl
      (by decide) (by decide)).1 (by decide),
   (isBefore_amended sC4 2 3 0 (mkTextNode 2 (some 1) none none)
      (mkTextNode 3 (some 0) (some 1) none)
      (mkRootNode 0 (some 1) (some 3) 2)
      (by decide) (by decide) rfl rfl (by decide) rfl rfl rfl
      (by decide) (by decide)).2 (by decide) (by decide)⟩
